import Mathlib

/-!
Verification of the layered scope/style resolution core
(`rust/core-lib/src/layers.rs` of xi-editor).

The file shallowly embeds the code: the `Scopes` / `ScopeLayer` structures
and their operations are translated from the Rust source.  The span data
structure (`xi_rope::spans::Spans`), the `Style` record (`styles.rs`) and
the resolver context (`DocumentCtx` / syntect scope parsing) are not part
of the provided sources; they are modelled from the specification, as
documented on each definition.
-/

namespace Xi

/-- Modelled from the spec: `Style` (styles.rs, not in the provided sources)
is "a set of optional visual attributes (color, weight, etc.), some of
which may be unset" (§ Glossary).  The attribute names follow the spec's
examples (foreground, background, bold/weight, underline, italic). -/
structure Style where
  fg : Option Nat := none
  bg : Option Nat := none
  bold : Option Bool := none
  underline : Option Bool := none
  italic : Option Bool := none
deriving DecidableEq, Repr, Inhabited

/-- Modelled from the spec: `Style::merge` (styles.rs, not in the provided
sources): "per visual attribute ... the overlay's explicitly-set attributes
take precedence; attributes the overlay leaves unset fall through to
`base`'s value" (§4.3.4).  `a` is the base, `b` the overlay. -/
def Style.merge (a b : Style) : Style :=
  { fg := b.fg.or a.fg
    bg := b.bg.or a.bg
    bold := b.bold.or a.bold
    underline := b.underline.or a.underline
    italic := b.italic.or a.italic }

/-- Half-open interval `[start, stop)` over document offsets (spec §3).
`Interval::new_closed_closed(0, len)` as used by the source over a span map
of length `len` has the same effect as `⟨0, len⟩` here, since span content
lives in `[0, len)`. -/
structure Iv where
  start : Nat
  stop : Nat
deriving DecidableEq, Repr, Inhabited

/-- One span: an interval together with its value. -/
structure Span (V : Type) where
  start : Nat
  stop : Nat
  val : V
deriving DecidableEq, Repr, Inhabited

/-- Modelled from the spec: `Spans<V>` (xi-rope `spans.rs`, not in the
provided sources): an ordered sequence of disjoint value-carrying spans
within `[0, len)`.  Sub-ranges carrying no span (gaps) are representable:
the source relies on this ("Inserts empty spans ... useful for clearing
spans"; the `None` arm of the combine closure in `resolve_styles`; the
`iter().next().is_some()` test in `debug_print_spans`). -/
structure Spans (V : Type) where
  len : Nat
  spans : List (Span V)
deriving DecidableEq, Repr, Inhabited

/-- `SpansBuilder::new(len).build()`: a span map of length `len` carrying
no spans. -/
def Spans.empty (V : Type) (len : Nat) : Spans V := ⟨len, []⟩

/-- `Spans::default()`: empty spans of length 0. -/
def Spans.default (V : Type) : Spans V := Spans.empty V 0

/-- The value the span map carries at position `p`, if any. -/
def Spans.valueAt {V : Type} (m : Spans V) (p : Nat) : Option V :=
  (m.spans.find? (fun s => s.start ≤ p && p < s.stop)).map (fun s => s.val)

/-- Modelled from the spec: `Spans::subseq` — "returns a copy limited to
`interval`, re-based so it starts at offset 0, length equal to
`interval`'s length" (§4.1).  The interval is clamped to the map. -/
def Spans.subseq {V : Type} (m : Spans V) (iv : Iv) : Spans V :=
  let a := min iv.start m.len
  let b := max a (min iv.stop m.len)
  { len := b - a
    spans := m.spans.filterMap (fun s =>
      if max s.start a < min s.stop b then
        some ⟨max s.start a - a, min s.stop b - a, s.val⟩
      else none) }

/-- The span list produced by `Spans.edit` once the interval has been
clamped to `[a, b]`: the truncated prefix, the replacement shifted to
start at `a`, and the truncated suffix shifted by the length change. -/
def editRaw {V : Type} (sp : List (Span V)) (a b rlen : Nat) (rsp : List (Span V)) :
    List (Span V) :=
  sp.filterMap (fun s =>
      if s.start < a then some ⟨s.start, min s.stop a, s.val⟩ else none)
    ++ rsp.map (fun s => ⟨s.start + a, s.stop + a, s.val⟩)
    ++ sp.filterMap (fun s =>
      if b < s.stop then
        some ⟨max s.start b - b + a + rlen, s.stop - b + a + rlen, s.val⟩
      else none)

/-- Modelled from the spec: `Spans::edit` — "replaces the content covering
`interval` with `replacement`, whose own length need not equal `interval`'s
length (this is how document length changes propagate)" (§4.1).  Spans
straddling a boundary are truncated; the suffix is shifted by the length
difference.  No value-based re-coalescing happens here: §4.1 requires no
comparability of `V` for `edit`. -/
def Spans.edit {V : Type} (m : Spans V) (iv : Iv) (r : Spans V) : Spans V :=
  let a := min iv.start m.len
  let b := max a (min iv.stop m.len)
  { len := m.len - (b - a) + r.len, spans := editRaw m.spans a b r.len r.spans }

/-- Consecutive pairs of a list: the minimal segments between successive
boundary points. -/
def pairUp : List Nat → List (Nat × Nat)
  | p :: q :: rest => (p, q) :: pairUp (q :: rest)
  | _ => []

/-- All interval boundaries of a span list, in order of the list. -/
def spanBounds {V : Type} : List (Span V) → List Nat
  | [] => []
  | s :: rest => s.start :: s.stop :: spanBounds rest

/-- The boundary points that sub-divide one span `s` of the base map:
`s`'s own endpoints plus the other map's boundaries falling strictly
inside `s`. -/
def segPoints {V : Type} (s : Span V) (cuts : List Nat) : List Nat :=
  s.start :: ((cuts.filter (fun c => s.start < c && c < s.stop)).dedup ++ [s.stop])

/-- Modelled from the spec: the lockstep walk of `Spans::merge` — "walks
both maps in lockstep over their interval boundaries (including boundaries
introduced by either side) and for each minimal overlapping sub-interval"
pairs the base value with the other map's value there, `none` when the
other map carries no span on that sub-interval (§4.1).  The combine
closure's first argument is a borrowed base value, so only sub-intervals
carrying a base value produce output. -/
def Spans.mergeSegs {V : Type} (a b : Spans V) : List (Span (V × Option V)) :=
  a.spans.flatMap (fun s =>
    (pairUp (segPoints s (spanBounds b.spans))).map
      (fun pq => ⟨pq.1, pq.2, (s.val, b.valueAt pq.1)⟩))

/-- Modelled from the spec: `Spans::merge` — applies the combine function
on each minimal sub-interval; "produces a new map of the same total
length, re-coalescing where `combine` yields equal adjacent results is the
caller's responsibility, not automatic" (§4.1). -/
def Spans.merge {V : Type} (a b : Spans V) (f : V → Option V → V) : Spans V :=
  { len := a.len
    spans := (a.mergeSegs b).map (fun s => ⟨s.start, s.stop, f s.val.1 s.val.2⟩) }

/-- The combine closure passed to `merge` inside `Scopes::resolve_styles`
(layers.rs lines 116-121): `match b { Some(b) => a.merge(b), None => a }`. -/
def styleCombine (a : Style) (b : Option Style) : Style :=
  match b with
  | some b => a.merge b
  | none => a

/-- Spans are strictly ordered and disjoint, starting no earlier than
`lo`: each span is nonempty and begins at or after the previous stop. -/
def chainB {V : Type} : Nat → List (Span V) → Bool
  | _, [] => true
  | lo, s :: rest => decide (lo ≤ s.start) && decide (s.start < s.stop) && chainB s.stop rest

/-- Well-formed span map: sorted, disjoint, nonempty spans contained in
`[0, len)` (spec §3 span-map invariants, minus full coverage). -/
def Spans.wfb {V : Type} (m : Spans V) : Bool :=
  chainB 0 m.spans && m.spans.all (fun s => decide (s.stop ≤ m.len))

/-- No two consecutive spans abut with equal values (the compression
invariant of spec §3, stated of a span list). -/
def noAdjEqB {V : Type} [DecidableEq V] : List (Span V) → Bool
  | p :: n :: rest =>
      !(decide (n.start = p.stop) && decide (p.val = n.val)) && noAdjEqB (n :: rest)
  | _ => true

/-- `self.style_lookup[i]` (Rust panics on an out-of-range index; callers
keep indices valid, so the default is never observed under the contract). -/
def styleAt (lookup : List Style) (i : Nat) : Style :=
  lookup.getD i Inhabited.default

/-- The while-loop of `ScopeLayer::update_styles` (layers.rs lines
249-259): looks each scope index up, combining a next span that exactly
abuts the previous one and resolves to an equal style. -/
def coalesceAux (lookup : List Style) : Span Nat → List (Span Nat) → List (Span Style)
  | p, [] => [⟨p.start, p.stop, styleAt lookup p.val⟩]
  | p, n :: rest =>
    if n.start = p.stop ∧ styleAt lookup p.val = styleAt lookup n.val then
      coalesceAux lookup ⟨p.start, n.stop, p.val⟩ rest
    else
      ⟨p.start, p.stop, styleAt lookup p.val⟩ :: coalesceAux lookup n rest

/-- Builds the style spans from scope-index spans, coalescing adjacent
equal styles (the body of `ScopeLayer::update_styles`). -/
def coalesce (lookup : List Style) : List (Span Nat) → List (Span Style)
  | [] => []
  | p :: rest => coalesceAux lookup p rest

/-- Modelled from the spec: the resolver capability (`DocumentCtx` with the
theme highlighter, and syntect scope parsing; neither is in the provided
sources).  `valid` says whether a scope name parses (`Scope::new`
succeeding); `styleForStack` resolves a stack of parsed scope names to a
style under the active theme (`styles_for_stacks` via
`style_mod_for_stack`).  An empty stack still yields a style. -/
structure StyleCtx where
  valid : String → Bool
  styleForStack : List String → Style

/-- A collection of scope spans from a single source (layers.rs lines
40-47).  A parsed syntect `Scope` is modelled by its name string. -/
structure ScopeLayer where
  stack_lookup : List (List String)
  style_lookup : List Style
  name_lookup : List (List String)
  scope_spans : Spans Nat
  style_spans : Spans Style
deriving DecidableEq, Inhabited

/-- `ScopeLayer::new(len)` (layers.rs lines 166-174). -/
def ScopeLayer.new (len : Nat) : ScopeLayer :=
  { stack_lookup := []
    style_lookup := []
    name_lookup := []
    scope_spans := Spans.empty Nat len
    style_spans := Spans.empty Style len }

/-- `ScopeLayer::update_styles` (layers.rs lines 233-262): rebuilds the
style spans for `iv` from the given scope spans, coalescing adjacent
spans that resolve to equal styles. -/
def ScopeLayer.update_styles (l : ScopeLayer) (iv : Iv) (spans : Spans Nat) : ScopeLayer :=
  { l with style_spans :=
      l.style_spans.edit iv ⟨spans.len, coalesce l.style_lookup spans.spans⟩ }

/-- `ScopeLayer::update_scopes` (layers.rs lines 226-229). -/
def ScopeLayer.update_scopes (l : ScopeLayer) (iv : Iv) (spans : Spans Nat) : ScopeLayer :=
  ({ l with scope_spans := l.scope_spans.edit iv spans } : ScopeLayer).update_styles iv spans

/-- `ScopeLayer::add_scopes` (layers.rs lines 187-210): for each stack,
names that fail to parse are dropped (and logged, not modelled); the
filtered stacks and their resolved styles are appended to the lookup
tables, the raw stacks to `name_lookup`. -/
def ScopeLayer.add_scopes (l : ScopeLayer) (scopes : List (List String))
    (ctx : StyleCtx) : ScopeLayer :=
  let acc := scopes.foldl
    (fun (acc : List (List String) × List (List String)) stack =>
      (acc.1 ++ [stack.filter ctx.valid], acc.2 ++ [stack]))
    ([], [])
  let new_styles := acc.1.map ctx.styleForStack
  { l with
    stack_lookup := l.stack_lookup ++ acc.1
    style_lookup := l.style_lookup ++ new_styles
    name_lookup := l.name_lookup ++ acc.2 }

/-- `ScopeLayer::theme_changed` (layers.rs lines 176-185): re-resolves
every stack to rebuild `style_lookup`, then recomputes `style_spans` over
the whole length from the unchanged `scope_spans`. -/
def ScopeLayer.theme_changed (l : ScopeLayer) (ctx : StyleCtx) : ScopeLayer :=
  let lookup := l.stack_lookup.map ctx.styleForStack
  let len := l.style_spans.len
  ({ l with style_lookup := lookup, style_spans := Spans.empty Style len }
    : ScopeLayer).update_styles ⟨0, len⟩ l.scope_spans

/-- A collection of layers containing scope information (layers.rs lines
34-37).  The `BTreeMap<PluginPid, ScopeLayer>` is modelled by an
association list kept sorted by ascending identifier, matching the map's
ascending-order iteration. -/
structure Scopes where
  layers : List (Nat × ScopeLayer)
  merged : Spans Style
deriving DecidableEq, Inhabited

/-- `Scopes::default()`. -/
def Scopes.default : Scopes := ⟨[], Spans.default Style⟩

/-- `get_merged` (layers.rs lines 51-53). -/
def Scopes.get_merged (s : Scopes) : Spans Style := s.merged

/-- Sorted insertion into the layer list (`BTreeMap::insert`). -/
def insertLayer : List (Nat × ScopeLayer) → Nat → ScopeLayer → List (Nat × ScopeLayer)
  | [], k, v => [(k, v)]
  | (k₁, v₁) :: rest, k, v =>
    if k < k₁ then (k, v) :: (k₁, v₁) :: rest
    else if k = k₁ then (k, v) :: rest
    else (k₁, v₁) :: insertLayer rest k v

/-- `Scopes::create_if_missing` (layers.rs lines 145-149): lazily creates
a layer sized to the current merged length. -/
def Scopes.create_if_missing (s : Scopes) (id : Nat) : Scopes :=
  if s.layers.any (fun p => p.1 = id) then s
  else { s with layers := insertLayer s.layers id (ScopeLayer.new s.merged.len) }

/-- `self.layers.get_mut(&layer).unwrap()` followed by a mutation: applies
`f` to the layer with the given identifier. -/
def Scopes.modifyLayer (s : Scopes) (id : Nat) (f : ScopeLayer → ScopeLayer) : Scopes :=
  { s with layers := s.layers.map (fun p => if p.1 = id then (p.1, f p.2) else p) }

/-- `Scopes::resolve_styles` (layers.rs lines 106-124): folds all layers'
style spans over `iv` in ascending identifier order with the
`styleCombine` closure, then writes the result into `merged` at `iv`.
With no layers it returns immediately. -/
def Scopes.resolve_styles (s : Scopes) (iv : Iv) : Scopes :=
  match s.layers with
  | [] => s
  | l :: rest =>
    let resolved := rest.foldl
      (fun acc other => acc.merge (other.2.style_spans.subseq iv) styleCombine)
      (l.2.style_spans.subseq iv)
    { s with merged := s.merged.edit iv resolved }

/-- `Scopes::add_scopes` (layers.rs lines 56-60). -/
def Scopes.add_scopes (s : Scopes) (id : Nat) (scopes : List (List String))
    (ctx : StyleCtx) : Scopes :=
  (s.create_if_missing id).modifyLayer id (fun l => l.add_scopes scopes ctx)

/-- `Scopes::update_all` (layers.rs lines 66-73): inserts empty spans at
`iv` in `merged` and every layer, then resolves styles over `iv`. -/
def Scopes.update_all (s : Scopes) (iv : Iv) (n : Nat) : Scopes :=
  let merged := s.merged.edit iv (Spans.empty Style n)
  let layers := s.layers.map
    (fun p => (p.1, p.2.update_scopes iv (Spans.empty Nat n)))
  ({ layers := layers, merged := merged } : Scopes).resolve_styles iv

/-- `Scopes::update_layer` (layers.rs lines 76-80). -/
def Scopes.update_layer (s : Scopes) (id : Nat) (iv : Iv) (spans : Spans Nat) : Scopes :=
  (((s.create_if_missing id).modifyLayer id
      (fun l => l.update_scopes iv spans)) : Scopes).resolve_styles iv

/-- `Scopes::remove_layer` (layers.rs lines 84-93): if the layer is
present it is removed, `merged` is reset to empty spans of the same
length, and styles are resolved over the entire document. -/
def Scopes.remove_layer (s : Scopes) (id : Nat) : Scopes :=
  if s.layers.any (fun p => p.1 = id) then
    ({ layers := s.layers.filter (fun p => ¬ p.1 = id)
       merged := Spans.empty Style s.merged.len } : Scopes).resolve_styles
      ⟨0, s.merged.len⟩
  else s

/-- `Scopes::theme_changed` (layers.rs lines 95-102). -/
def Scopes.theme_changed (s : Scopes) (ctx : StyleCtx) : Scopes :=
  ({ layers := s.layers.map (fun p => (p.1, p.2.theme_changed ctx))
     merged := Spans.empty Style s.merged.len } : Scopes).resolve_styles
    ⟨0, s.merged.len⟩

/-- One public operation of the core (spec §6 inbound interface). -/
inductive Op where
  | addScopes (id : Nat) (scopes : List (List String)) (ctx : StyleCtx)
  | updateLayer (id : Nat) (iv : Iv) (spans : Spans Nat)
  | updateAll (iv : Iv) (n : Nat)
  | removeLayer (id : Nat)
  | themeChanged (ctx : StyleCtx)

/-- Applies one public operation. -/
def applyOp (s : Scopes) : Op → Scopes
  | Op.addScopes id scopes ctx => s.add_scopes id scopes ctx
  | Op.updateLayer id iv spans => s.update_layer id iv spans
  | Op.updateAll iv n => s.update_all iv n
  | Op.removeLayer id => s.remove_layer id
  | Op.themeChanged ctx => s.theme_changed ctx

/-- The document length after an operation (only `update_all` reflects a
document edit; spec §4.3). -/
def nextLen (len : Nat) : Op → Nat
  | Op.updateAll iv n => len - (min iv.stop len - min iv.start len) + n
  | _ => len

/-- Caller contract of one operation at current document length `len`
(spec §7: span lengths must stay synchronized with the interval being
replaced; violating this is declared a fatal contract violation). -/
def opWFB (len : Nat) : Op → Bool
  | Op.updateLayer _ iv spans =>
      decide (iv.start ≤ iv.stop) && decide (iv.stop ≤ len) &&
        decide (spans.len = iv.stop - iv.start)
  | Op.updateAll iv _ =>
      decide (iv.start ≤ iv.stop) && decide (iv.stop ≤ len)
  | _ => true

/-- Caller contract along a whole trace. -/
def traceWFB : Nat → List Op → Bool
  | _, [] => true
  | len, op :: rest => opWFB len op && traceWFB (nextLen len op) rest

/-- The document length after a trace. -/
def traceLen (len : Nat) (ops : List Op) : Nat :=
  ops.foldl nextLen len

/-- Length-lockstep invariant (spec §3 invariant 1): every layer's scope
and style spans have the same length as `merged`. -/
def LenInv (s : Scopes) : Prop :=
  ∀ p ∈ s.layers, p.2.scope_spans.len = s.merged.len ∧
    p.2.style_spans.len = s.merged.len

instance (s : Scopes) : Decidable (LenInv s) := by
  unfold LenInv; infer_instance

/-! Concrete scenario data used by example-based claims. -/

/-- A resolver mapping every stack to a red foreground. -/
def exCtxRed : StyleCtx := ⟨fun _ => true, fun _ => { fg := some 1 }⟩

/-- A resolver mapping every stack to bold with color unset. -/
def exCtxBold : StyleCtx := ⟨fun _ => true, fun _ => { bold := some true }⟩

/-- A resolver mapping every stack to a blue foreground plus bold. -/
def exCtxBlueBold : StyleCtx := ⟨fun _ => true, fun _ => { fg := some 2, bold := some true }⟩

/-- Scope spans assigning lookup index 0 to all of `[0, 10)`. -/
def exFull : Spans Nat := ⟨10, [⟨0, 10, 0⟩]⟩

/-- A document of length 10 with no layer data yet. -/
def exInit : Scopes := Scopes.default.update_all ⟨0, 0⟩ 10

/-- Source 1 contributes red over `[0, 10)`, then source 2 contributes
bold (color unset) over `[0, 10)`. -/
def exOneTwo : Scopes :=
  (((exInit.add_scopes 1 [["red"]] exCtxRed).update_layer 1 ⟨0, 10⟩ exFull).add_scopes
      2 [["bold"]] exCtxBold).update_layer 2 ⟨0, 10⟩ exFull

/-- The same two sources registered in the opposite order, with source 2
contributing blue+bold, source 1 red. -/
def exTwoOne : Scopes :=
  (((exInit.add_scopes 2 [["blue"]] exCtxBlueBold).update_layer 2 ⟨0, 10⟩ exFull).add_scopes
      1 [["red"]] exCtxRed).update_layer 1 ⟨0, 10⟩ exFull

/-- Two successive updates to layer 1 covering `[0,5)` and `[5,10)` with
scope data resolving to the same style. -/
def exTwoUpdates : Scopes :=
  ((exInit.add_scopes 1 [["a"]] exCtxRed).update_layer 1 ⟨0, 5⟩
      ⟨5, [⟨0, 5, 0⟩]⟩).update_layer 1 ⟨5, 10⟩ ⟨5, [⟨0, 5, 0⟩]⟩

/-- A sample trace exercising every public operation under the caller
contract. -/
def exOpsTrace : List Op :=
  [Op.updateAll ⟨0, 0⟩ 6,
   Op.addScopes 1 [["a"]] exCtxRed,
   Op.updateLayer 1 ⟨0, 6⟩ ⟨6, [⟨0, 6, 0⟩]⟩,
   Op.updateAll ⟨2, 4⟩ 3,
   Op.themeChanged exCtxBold,
   Op.removeLayer 1]

/-- The layers of a state, in ascending identifier order. -/
def layersOf (s : Scopes) : List ScopeLayer := s.layers.map (fun p => p.2)

/-- Layer 1 fully populated over a 10-unit document, then layer 2 is
created and given scope data covering only `[0, 2)` of the interval
`[0, 5)`; the state right before `update_layer`'s internal
`resolve_styles` call. -/
def exGapPre : Scopes :=
  ((((exInit.add_scopes 1 [["a"]] exCtxRed).update_layer 1 ⟨0, 10⟩ exFull).add_scopes
        2 [["b"]] exCtxBold).create_if_missing 2).modifyLayer 2
    (fun l => l.update_scopes ⟨0, 5⟩ ⟨5, [⟨0, 2, 0⟩]⟩)

/-- All span endpoints of `m` lie within `[0, m.len]`. -/
def Spans.AllB {V : Type} (m : Spans V) : Prop :=
  ∀ sp ∈ m.spans, sp.start ≤ m.len ∧ sp.stop ≤ m.len

/-! Basic lemmas about the span operations. -/

theorem Spans.merge_len {V : Type} (a b : Spans V) (f : V → Option V → V) :
    (a.merge b f).len = a.len := rfl

theorem Spans.subseq_len {V : Type} (m : Spans V) (iv : Iv) :
    (m.subseq iv).len =
      max (min iv.start m.len) (min iv.stop m.len) - min iv.start m.len := rfl

theorem Spans.edit_len {V : Type} (m r : Spans V) (iv : Iv) :
    (m.edit iv r).len =
      m.len - (max (min iv.start m.len) (min iv.stop m.len) - min iv.start m.len)
        + r.len := rfl

theorem Spans.edit_spans {V : Type} (m r : Spans V) (iv : Iv) :
    (m.edit iv r).spans =
      editRaw m.spans (min iv.start m.len)
        (max (min iv.start m.len) (min iv.stop m.len)) r.len r.spans := rfl

theorem Spans.ext_eq {V : Type} {x y : Spans V}
    (h1 : x.len = y.len) (h2 : x.spans = y.spans) : x = y := by
  cases x; cases y; simp_all

theorem filterMap_some_id {α : Type} {f : α → Option α} :
    ∀ {l : List α}, (∀ x ∈ l, f x = some x) → l.filterMap f = l := by
  intro l
  induction l with
  | nil => intro _; rfl
  | cons x xs ih =>
    intro h
    rw [List.filterMap_cons, h x (by simp)]
    rw [ih (fun y hy => h y (by simp [hy]))]

theorem pairUp_mem : ∀ (l : List Nat), ∀ pq ∈ pairUp l, pq.1 ∈ l ∧ pq.2 ∈ l := by
  intro l
  induction l with
  | nil => simp [pairUp]
  | cons x rest ih =>
    cases rest with
    | nil => simp [pairUp]
    | cons y rest2 =>
      intro pq hpq
      rw [pairUp] at hpq
      rcases List.mem_cons.mp hpq with h1 | h2
      · subst h1; exact ⟨by simp, by simp⟩
      · have := ih pq h2
        exact ⟨List.mem_cons_of_mem x this.1, List.mem_cons_of_mem x this.2⟩

theorem segPoints_mem {V : Type} (s : Span V) (cuts : List Nat) :
    ∀ x ∈ segPoints s cuts,
      x = s.start ∨ x = s.stop ∨ (s.start < x ∧ x < s.stop) := by
  intro x hx
  unfold segPoints at hx
  rcases List.mem_cons.mp hx with h1 | h2
  · exact Or.inl h1
  · rcases List.mem_append.mp h2 with h3 | h4
    · have h5 := List.mem_filter.mp (List.mem_dedup.mp h3)
      right; right
      simpa using h5.2
    · right; left; simpa using h4

theorem mergeSegs_mem {V : Type} (a b : Spans V) (g : Span (V × Option V))
    (hg : g ∈ a.mergeSegs b) :
    ∃ s ∈ a.spans, ∃ pq ∈ pairUp (segPoints s (spanBounds b.spans)),
      g = ⟨pq.1, pq.2, (s.val, b.valueAt pq.1)⟩ := by
  unfold Spans.mergeSegs at hg
  obtain ⟨s, hs, hg2⟩ := List.mem_flatMap.mp hg
  obtain ⟨pq, hpq, rfl⟩ := List.mem_map.mp hg2
  exact ⟨s, hs, pq, hpq, rfl⟩

theorem Spans.subseq_AllB {V : Type} (m : Spans V) (iv : Iv) : (m.subseq iv).AllB := by
  intro sp hsp
  unfold Spans.subseq at hsp
  simp only [List.mem_filterMap] at hsp
  obtain ⟨s, _, hsome⟩ := hsp
  split at hsome
  case isTrue h =>
    cases hsome
    refine ⟨?_, ?_⟩ <;> simp [Spans.subseq_len] <;> omega
  case isFalse h => exact absurd hsome (by simp)

theorem Spans.merge_AllB {V : Type} (a b : Spans V) (f : V → Option V → V)
    (ha : a.AllB) : (a.merge b f).AllB := by
  intro sp hsp
  unfold Spans.merge at hsp
  simp only [List.mem_map] at hsp
  obtain ⟨g, hg, rfl⟩ := hsp
  obtain ⟨s, hs, pq, hpq, rfl⟩ := mergeSegs_mem a b g hg
  have hb1 := (pairUp_mem _ pq hpq).1
  have hb2 := (pairUp_mem _ pq hpq).2
  have h1 := segPoints_mem s (spanBounds b.spans) pq.1 hb1
  have h2 := segPoints_mem s (spanBounds b.spans) pq.2 hb2
  have hs1 := ha s hs
  show pq.1 ≤ (a.merge b f).len ∧ pq.2 ≤ (a.merge b f).len
  rw [Spans.merge_len]
  rcases h1 with h1 | h1 | h1 <;> rcases h2 with h2 | h2 | h2 <;> omega

theorem foldl_merge_len (iv : Iv) :
    ∀ (rest : List (Nat × ScopeLayer)) (init : Spans Style),
      (rest.foldl
        (fun acc other => acc.merge (other.2.style_spans.subseq iv) styleCombine)
        init).len = init.len := by
  intro rest
  induction rest with
  | nil => intro init; rfl
  | cons x xs ih => intro init; rw [List.foldl_cons, ih]; rfl

theorem foldl_merge_AllB (iv : Iv) :
    ∀ (rest : List (Nat × ScopeLayer)) (init : Spans Style), init.AllB →
      (rest.foldl
        (fun acc other => acc.merge (other.2.style_spans.subseq iv) styleCombine)
        init).AllB := by
  intro rest
  induction rest with
  | nil => intro init h; exact h
  | cons x xs ih =>
    intro init h
    rw [List.foldl_cons]
    exact ih _ (Spans.merge_AllB _ _ _ h)

theorem resolve_merged_len (s : Scopes) (iv : Iv)
    (h : ∀ p ∈ s.layers, p.2.style_spans.len = s.merged.len) :
    (s.resolve_styles iv).merged.len = s.merged.len := by
  obtain ⟨layers, merged⟩ := s
  cases layers with
  | nil => rfl
  | cons l rest =>
    show (merged.edit iv _).len = merged.len
    rw [Spans.edit_len, foldl_merge_len, Spans.subseq_len]
    have hl : l.2.style_spans.len = merged.len := h l (List.mem_cons_self _ _)
    rw [hl]
    have h1 : min iv.start merged.len ≤ merged.len := Nat.min_le_right _ _
    have h2 : min iv.stop merged.len ≤ merged.len := Nat.min_le_right _ _
    omega

theorem editRaw_idem {V : Type} (sp rsp : List (Span V)) (a b : Nat)
    (hab : a ≤ b) (hb : ∀ s ∈ rsp, s.stop ≤ b - a) :
    editRaw (editRaw sp a b (b - a) rsp) a b (b - a) rsp =
      editRaw sp a b (b - a) rsp := by
  have memL : ∀ x ∈ sp.filterMap (fun s =>
      if s.start < a then some (⟨s.start, min s.stop a, s.val⟩ : Span V) else none),
      x.start < a ∧ x.stop ≤ a := by
    intro x hx
    obtain ⟨s, _, hsome⟩ := List.mem_filterMap.mp hx
    split at hsome
    case isTrue h =>
      cases hsome
      refine ⟨h, ?_⟩
      show min s.stop a ≤ a
      omega
    case isFalse h => exact absurd hsome (by simp)
  have memM : ∀ x ∈ rsp.map (fun s =>
      (⟨s.start + a, s.stop + a, s.val⟩ : Span V)),
      a ≤ x.start ∧ x.stop ≤ b := by
    intro x hx
    obtain ⟨s, hs, rfl⟩ := List.mem_map.mp hx
    have := hb s hs
    refine ⟨?_, ?_⟩
    · show a ≤ s.start + a
      omega
    · show s.stop + a ≤ b
      omega
  have memR : ∀ x ∈ sp.filterMap (fun s =>
      if b < s.stop then
        some (⟨max s.start b - b + a + (b - a), s.stop - b + a + (b - a), s.val⟩ : Span V)
      else none),
      b ≤ x.start ∧ b < x.stop := by
    intro x hx
    obtain ⟨s, _, hsome⟩ := List.mem_filterMap.mp hx
    split at hsome
    case isTrue h =>
      cases hsome
      refine ⟨?_, ?_⟩
      · show b ≤ max s.start b - b + a + (b - a)
        omega
      · show b < s.stop - b + a + (b - a)
        omega
    case isFalse h => exact absurd hsome (by simp)
  unfold editRaw
  rw [List.filterMap_append, List.filterMap_append,
      List.filterMap_append, List.filterMap_append]
  have hL1 : ∀ (l : List (Span V)), (∀ x ∈ l, x.start < a ∧ x.stop ≤ a) →
      l.filterMap (fun s =>
        if s.start < a then some (⟨s.start, min s.stop a, s.val⟩ : Span V) else none) = l := by
    intro l hl
    apply filterMap_some_id
    intro x hx
    obtain ⟨hx1, hx2⟩ := hl x hx
    obtain ⟨xs, xt, xv⟩ := x
    dsimp only at hx1 hx2
    rw [if_pos hx1]
    simp only [Option.some.injEq, Span.mk.injEq, true_and, and_true]
    omega
  have hL2 : ∀ (l : List (Span V)), (∀ x ∈ l, a ≤ x.start) →
      l.filterMap (fun s =>
        if s.start < a then some (⟨s.start, min s.stop a, s.val⟩ : Span V) else none) = [] := by
    intro l hl
    rw [List.filterMap_eq_nil_iff]
    intro x hx
    rw [if_neg (by have := hl x hx; omega)]
  have hR1 : ∀ (l : List (Span V)), (∀ x ∈ l, x.stop ≤ b) →
      l.filterMap (fun s =>
        if b < s.stop then
          some (⟨max s.start b - b + a + (b - a), s.stop - b + a + (b - a), s.val⟩ : Span V)
        else none) = [] := by
    intro l hl
    rw [List.filterMap_eq_nil_iff]
    intro x hx
    rw [if_neg (by have := hl x hx; omega)]
  have hR2 : ∀ (l : List (Span V)), (∀ x ∈ l, b ≤ x.start ∧ b < x.stop) →
      l.filterMap (fun s =>
        if b < s.stop then
          some (⟨max s.start b - b + a + (b - a), s.stop - b + a + (b - a), s.val⟩ : Span V)
        else none) = l := by
    intro l hl
    apply filterMap_some_id
    intro x hx
    obtain ⟨hx1, hx2⟩ := hl x hx
    obtain ⟨xs, xt, xv⟩ := x
    dsimp only at hx1 hx2
    rw [if_pos hx2]
    simp only [Option.some.injEq, Span.mk.injEq, and_true]
    exact ⟨by omega, by omega⟩
  rw [hL1 _ memL, hL2 _ (fun x hx => (memM x hx).1),
      hL2 _ (fun x hx => le_trans hab (memR x hx).1),
      hR1 _ (fun x hx => le_trans (memL x hx).2 hab),
      hR1 _ (fun x hx => (memM x hx).2), hR2 _ memR]
  simp

theorem Spans.edit_twice {V : Type} (m r : Spans V) (iv : Iv)
    (hr : r.len = max (min iv.start m.len) (min iv.stop m.len) - min iv.start m.len)
    (hb : ∀ sp ∈ r.spans, sp.stop ≤ r.len) :
    (m.edit iv r).edit iv r = m.edit iv r := by
  have h1 : min iv.start m.len ≤ m.len := Nat.min_le_right _ _
  have h2 : min iv.stop m.len ≤ m.len := Nat.min_le_right _ _
  have hab : min iv.start m.len ≤ max (min iv.start m.len) (min iv.stop m.len) :=
    le_max_left _ _
  have hlen : (m.edit iv r).len = m.len := by
    rw [Spans.edit_len, hr]; omega
  apply Spans.ext_eq
  · conv_lhs => rw [Spans.edit_len]
    rw [hlen]
    omega
  · conv_lhs => rw [Spans.edit_spans]
    rw [hlen, Spans.edit_spans, hr]
    exact editRaw_idem m.spans r.spans _ _ hab (fun s hs => hr ▸ hb s hs)

theorem resolve_layers (s : Scopes) (iv : Iv) :
    (s.resolve_styles iv).layers = s.layers := by
  obtain ⟨layers, merged⟩ := s
  unfold Scopes.resolve_styles
  cases layers <;> rfl

theorem coalesceAux_head (lookup : List Style) :
    ∀ (l : List (Span Nat)) (p : Span Nat), ∃ q tail,
      coalesceAux lookup p l = ⟨p.start, q, styleAt lookup p.val⟩ :: tail := by
  intro l
  induction l with
  | nil => exact fun p => ⟨p.stop, [], rfl⟩
  | cons n rest ih =>
    intro p
    by_cases h : n.start = p.stop ∧ styleAt lookup p.val = styleAt lookup n.val
    · rw [coalesceAux, if_pos h]
      obtain ⟨q, tail, heq⟩ := ih ⟨p.start, n.stop, p.val⟩
      exact ⟨q, tail, heq⟩
    · rw [coalesceAux, if_neg h]
      exact ⟨p.stop, _, rfl⟩

theorem coalesceAux_noAdj (lookup : List Style) :
    ∀ (l : List (Span Nat)) (p : Span Nat),
      noAdjEqB (coalesceAux lookup p l) = true := by
  intro l
  induction l with
  | nil => intro p; rfl
  | cons n rest ih =>
    intro p
    by_cases h : n.start = p.stop ∧ styleAt lookup p.val = styleAt lookup n.val
    · rw [coalesceAux, if_pos h]
      exact ih ⟨p.start, n.stop, p.val⟩
    · rw [coalesceAux, if_neg h]
      obtain ⟨q, tail, heq⟩ := coalesceAux_head lookup rest n
      have h2 := ih n
      rw [heq] at h2 ⊢
      simp only [noAdjEqB, Bool.and_eq_true, Bool.not_eq_true']
      constructor
      · by_cases hs : n.start = p.stop
        · have : ¬ styleAt lookup p.val = styleAt lookup n.val := fun hv => h ⟨hs, hv⟩
          simp [this]
        · simp [hs]
      · exact h2

theorem coalesce_noAdj (lookup : List Style) (l : List (Span Nat)) :
    noAdjEqB (coalesce lookup l) = true := by
  cases l with
  | nil => rfl
  | cons p rest => exact coalesceAux_noAdj lookup rest p

theorem Spans.subseq_spans {V : Type} (m : Spans V) (iv : Iv) :
    (m.subseq iv).spans = m.spans.filterMap (fun s =>
      if max s.start (min iv.start m.len) <
          min s.stop (max (min iv.start m.len) (min iv.stop m.len)) then
        some ⟨max s.start (min iv.start m.len) - min iv.start m.len,
              min s.stop (max (min iv.start m.len) (min iv.stop m.len))
                - min iv.start m.len, s.val⟩
      else none) := rfl

theorem edit_nil_windowFree {V : Type} (m r : Spans V) (iv : Iv)
    (hnil : r.spans = []) (hs : iv.start ≤ m.len) :
    ∀ sp ∈ (m.edit iv r).spans,
      sp.stop ≤ iv.start ∨ iv.start + r.len ≤ sp.start := by
  intro sp hsp
  rw [Spans.edit_spans] at hsp
  unfold editRaw at hsp
  rw [hnil] at hsp
  simp only [List.map_nil, List.append_nil, List.nil_append, List.mem_append,
    List.mem_filterMap] at hsp
  have ha : min iv.start m.len = iv.start := by omega
  rcases hsp with ⟨s, _, hsome⟩ | ⟨s, _, hsome⟩
  · split at hsome
    case isTrue h =>
      cases hsome
      left
      show min s.stop (min iv.start m.len) ≤ iv.start
      omega
    case isFalse h => exact absurd hsome (by simp)
  · split at hsome
    case isTrue h =>
      cases hsome
      right
      show iv.start + r.len ≤
        max s.start (max (min iv.start m.len) (min iv.stop m.len))
          - max (min iv.start m.len) (min iv.stop m.len) + min iv.start m.len + r.len
      omega
    case isFalse h => exact absurd hsome (by simp)

theorem subseq_startStop {V : Type} (m : Spans V) (iv : Iv) (n : Nat)
    (hs : iv.start ≤ m.len)
    (hw : ∀ sp ∈ m.spans, sp.stop ≤ iv.start ∨ iv.start + n ≤ sp.start) :
    ∀ sp ∈ (m.subseq iv).spans, n ≤ sp.start ∧ n ≤ sp.stop := by
  intro sp hsp
  rw [Spans.subseq_spans] at hsp
  simp only [List.mem_filterMap] at hsp
  obtain ⟨s, hsm, hsome⟩ := hsp
  have ha : min iv.start m.len = iv.start := by omega
  split at hsome
  case isTrue h =>
    cases hsome
    have := hw s hsm
    constructor
    · show n ≤ max s.start (min iv.start m.len) - min iv.start m.len
      omega
    · show n ≤ min s.stop (max (min iv.start m.len) (min iv.stop m.len))
        - min iv.start m.len
      omega
  case isFalse h => exact absurd hsome (by simp)

theorem merge_startStop {V : Type} (a b : Spans V) (f : V → Option V → V) (n : Nat)
    (h : ∀ sp ∈ a.spans, n ≤ sp.start ∧ n ≤ sp.stop) :
    ∀ sp ∈ (a.merge b f).spans, n ≤ sp.start ∧ n ≤ sp.stop := by
  intro sp hsp
  unfold Spans.merge at hsp
  simp only [List.mem_map] at hsp
  obtain ⟨g, hg, rfl⟩ := hsp
  obtain ⟨s, hs, pq, hpq, rfl⟩ := mergeSegs_mem a b g hg
  have hsn := h s hs
  have hm1 := segPoints_mem s (spanBounds b.spans) pq.1 (pairUp_mem _ pq hpq).1
  have hm2 := segPoints_mem s (spanBounds b.spans) pq.2 (pairUp_mem _ pq hpq).2
  constructor
  · show n ≤ pq.1
    rcases hm1 with h1 | h1 | h1 <;> omega
  · show n ≤ pq.2
    rcases hm2 with h1 | h1 | h1 <;> omega

theorem foldl_merge_startStop (iv : Iv) (n : Nat) :
    ∀ (rest : List (Nat × ScopeLayer)) (init : Spans Style),
      (∀ sp ∈ init.spans, n ≤ sp.start ∧ n ≤ sp.stop) →
      ∀ sp ∈ (rest.foldl
          (fun acc other => acc.merge (other.2.style_spans.subseq iv) styleCombine)
          init).spans, n ≤ sp.start ∧ n ≤ sp.stop := by
  intro rest
  induction rest with
  | nil => intro init h; exact h
  | cons x xs ih =>
    intro init h
    rw [List.foldl_cons]
    exact ih _ (merge_startStop _ _ _ n h)

theorem edit_final_windowFree {V : Type} (m r : Spans V) (iv : Iv) (n : Nat)
    (hs : iv.start ≤ m.len)
    (hrlen : r.len =
      max (min iv.start m.len) (min iv.stop m.len) - min iv.start m.len)
    (hrsp : ∀ sp ∈ r.spans, n ≤ sp.start)
    (hm : ∀ sp ∈ m.spans, sp.stop ≤ iv.start ∨ iv.start + n ≤ sp.start) :
    ∀ sp ∈ (m.edit iv r).spans,
      sp.stop ≤ iv.start ∨ iv.start + n ≤ sp.start := by
  intro sp hsp
  rw [Spans.edit_spans] at hsp
  unfold editRaw at hsp
  simp only [List.mem_append, List.mem_filterMap, List.mem_map] at hsp
  have ha : min iv.start m.len = iv.start := by omega
  rcases hsp with (⟨s, _, hsome⟩ | ⟨s, hsm, rfl⟩) | ⟨s, hsm, hsome⟩
  · split at hsome
    case isTrue h =>
      cases hsome
      left
      show min s.stop (min iv.start m.len) ≤ iv.start
      omega
    case isFalse h => exact absurd hsome (by simp)
  · right
    have := hrsp s hsm
    show iv.start + n ≤ s.start + min iv.start m.len
    omega
  · split at hsome
    case isTrue h =>
      cases hsome
      right
      have := hm s hsm
      show iv.start + n ≤
        max s.start (max (min iv.start m.len) (min iv.stop m.len))
          - max (min iv.start m.len) (min iv.stop m.len) + min iv.start m.len + r.len
      omega
    case isFalse h => exact absurd hsome (by simp)

theorem subseq_window_empty {V : Type} (m : Spans V) (st n : Nat)
    (hlen : st + n ≤ m.len)
    (hw : ∀ sp ∈ m.spans, sp.stop ≤ st ∨ st + n ≤ sp.start) :
    m.subseq ⟨st, st + n⟩ = Spans.empty V n := by
  apply Spans.ext_eq
  · rw [Spans.subseq_len]
    show _ = n
    dsimp only
    omega
  · rw [Spans.subseq_spans]
    show _ = ([] : List (Span V))
    rw [List.filterMap_eq_nil_iff]
    intro s hs
    rw [if_neg]
    have := hw s hs
    dsimp only
    omega

theorem insertLayer_mem :
    ∀ (l : List (Nat × ScopeLayer)) (k : Nat) (v : ScopeLayer),
      ∀ p ∈ insertLayer l k v, p = (k, v) ∨ p ∈ l := by
  intro l k v
  induction l with
  | nil =>
    intro p hp
    simp only [insertLayer] at hp
    exact Or.inl (by simpa using hp)
  | cons x rest ih =>
    obtain ⟨k₁, v₁⟩ := x
    intro p hp
    rw [insertLayer] at hp
    split at hp
    · rcases List.mem_cons.mp hp with h | h
      · exact Or.inl h
      · exact Or.inr h
    · split at hp
      · rcases List.mem_cons.mp hp with h | h
        · exact Or.inl h
        · exact Or.inr (List.mem_cons_of_mem _ h)
      · rcases List.mem_cons.mp hp with h | h
        · exact Or.inr (by simp [h])
        · rcases ih p h with h2 | h2
          · exact Or.inl h2
          · exact Or.inr (List.mem_cons_of_mem _ h2)

theorem create_if_missing_merged (s : Scopes) (id : Nat) :
    (s.create_if_missing id).merged = s.merged := by
  unfold Scopes.create_if_missing
  split <;> rfl

theorem create_if_missing_LenInv (s : Scopes) (id : Nat) (h : LenInv s) :
    LenInv (s.create_if_missing id) := by
  unfold Scopes.create_if_missing
  split
  · exact h
  · intro p hp
    rcases insertLayer_mem _ _ _ p hp with rfl | hp2
    · exact ⟨rfl, rfl⟩
    · exact h p hp2

theorem modifyLayer_merged (s : Scopes) (id : Nat) (f : ScopeLayer → ScopeLayer) :
    (s.modifyLayer id f).merged = s.merged := rfl

theorem modifyLayer_LenInv (s : Scopes) (id : Nat) (f : ScopeLayer → ScopeLayer)
    (h : LenInv s)
    (hf : ∀ l : ScopeLayer, l.scope_spans.len = s.merged.len →
      l.style_spans.len = s.merged.len →
      (f l).scope_spans.len = s.merged.len ∧ (f l).style_spans.len = s.merged.len) :
    LenInv (s.modifyLayer id f) := by
  intro p hp
  unfold Scopes.modifyLayer at hp
  simp only [List.mem_map] at hp
  obtain ⟨q, hq, rfl⟩ := hp
  split
  · exact hf q.2 (h q hq).1 (h q hq).2
  · exact h q hq

theorem resolve_LenInv (s : Scopes) (iv : Iv) (h : LenInv s) :
    LenInv (s.resolve_styles iv) ∧ (s.resolve_styles iv).merged.len = s.merged.len := by
  have hm := resolve_merged_len s iv (fun p hp => (h p hp).2)
  refine ⟨?_, hm⟩
  intro p hp
  rw [resolve_layers] at hp
  have h2 := h p hp
  rw [hm]
  exact h2

theorem theme_changed_scope (l : ScopeLayer) (ctx : StyleCtx) :
    (l.theme_changed ctx).scope_spans = l.scope_spans := rfl

theorem theme_changed_style_len (l : ScopeLayer) (ctx : StyleCtx) :
    (l.theme_changed ctx).style_spans.len = l.scope_spans.len := by
  show ((Spans.empty Style l.style_spans.len).edit ⟨0, l.style_spans.len⟩
      ⟨l.scope_spans.len, _⟩).len = l.scope_spans.len
  rw [Spans.edit_len]
  show l.style_spans.len - _ + l.scope_spans.len = l.scope_spans.len
  have h0 : (Spans.empty Style l.style_spans.len).len = l.style_spans.len := rfl
  rw [h0]
  dsimp only
  omega

theorem update_all_mid_LenInv (s : Scopes) (iv : Iv) (n : Nat) (hInv : LenInv s) :
    LenInv ({ layers := s.layers.map
                (fun p => (p.1, p.2.update_scopes iv (Spans.empty Nat n)))
              merged := s.merged.edit iv (Spans.empty Style n) } : Scopes) := by
  intro p hp
  simp only [List.mem_map] at hp
  obtain ⟨q, hq, rfl⟩ := hp
  have hq1 := (hInv q hq).1
  have hq2 := (hInv q hq).2
  constructor
  · show (q.2.scope_spans.edit iv (Spans.empty Nat n)).len =
      (s.merged.edit iv (Spans.empty Style n)).len
    rw [Spans.edit_len, Spans.edit_len, hq1]
    rfl
  · show (q.2.style_spans.edit iv ⟨(Spans.empty Nat n).len, _⟩).len =
      (s.merged.edit iv (Spans.empty Style n)).len
    rw [Spans.edit_len, Spans.edit_len, hq2]
    rfl

theorem applyOp_step (s : Scopes) (op : Op) (hInv : LenInv s)
    (hwf : opWFB s.merged.len op = true) :
    LenInv (applyOp s op) ∧ (applyOp s op).merged.len = nextLen s.merged.len op := by
  cases op with
  | addScopes id scopes ctx =>
    have h1 := create_if_missing_LenInv s id hInv
    have hm := create_if_missing_merged s id
    have h2 := modifyLayer_LenInv (s.create_if_missing id) id
      (fun l => l.add_scopes scopes ctx) h1 (fun l hl1 hl2 => ⟨hl1, hl2⟩)
    refine ⟨h2, ?_⟩
    show (Scopes.modifyLayer _ _ _).merged.len = s.merged.len
    rw [modifyLayer_merged, hm]
  | updateLayer id iv spans =>
    have hw : (iv.start ≤ iv.stop ∧ iv.stop ≤ s.merged.len) ∧
        spans.len = iv.stop - iv.start := by
      simpa [opWFB] using hwf
    have h1 := create_if_missing_LenInv s id hInv
    have hm := create_if_missing_merged s id
    have h2 : LenInv ((s.create_if_missing id).modifyLayer id
        (fun l => l.update_scopes iv spans)) := by
      apply modifyLayer_LenInv _ id _ h1
      intro l hl1 hl2
      rw [hm] at hl1 hl2
      constructor
      · show (l.scope_spans.edit iv spans).len = _
        rw [Spans.edit_len, hl1, hm]
        omega
      · show (l.style_spans.edit iv ⟨spans.len, _⟩).len = _
        rw [Spans.edit_len, hl2, hm]
        show s.merged.len - _ + spans.len = s.merged.len
        omega
    have h3 := resolve_LenInv _ iv h2
    refine ⟨h3.1, ?_⟩
    show (Scopes.resolve_styles _ _).merged.len = s.merged.len
    rw [h3.2, modifyLayer_merged, hm]
  | updateAll iv n =>
    have hw : iv.start ≤ iv.stop ∧ iv.stop ≤ s.merged.len := by
      simpa [opWFB] using hwf
    have hInv₁ := update_all_mid_LenInv s iv n hInv
    have h3 := resolve_LenInv _ iv hInv₁
    refine ⟨h3.1, ?_⟩
    show (Scopes.resolve_styles _ _).merged.len = _
    rw [h3.2]
    show (s.merged.edit iv (Spans.empty Style n)).len = _
    rw [Spans.edit_len]
    show s.merged.len - _ + n = s.merged.len - _ + n
    omega
  | removeLayer id =>
    show LenInv (s.remove_layer id) ∧ (s.remove_layer id).merged.len = s.merged.len
    unfold Scopes.remove_layer
    split
    · have hInv₁ : LenInv
          ({ layers := s.layers.filter (fun p => ¬ p.1 = id)
             merged := Spans.empty Style s.merged.len } : Scopes) := by
        intro p hp
        exact hInv p (List.mem_of_mem_filter hp)
      have h3 := resolve_LenInv _ ⟨0, s.merged.len⟩ hInv₁
      exact ⟨h3.1, h3.2⟩
    · exact ⟨hInv, rfl⟩
  | themeChanged ctx =>
    have hInv₁ : LenInv
        ({ layers := s.layers.map (fun p => (p.1, p.2.theme_changed ctx))
           merged := Spans.empty Style s.merged.len } : Scopes) := by
      intro p hp
      simp only [List.mem_map] at hp
      obtain ⟨q, hq, rfl⟩ := hp
      have hq1 := (hInv q hq).1
      have hq2 := (hInv q hq).2
      constructor
      · show (q.2.theme_changed ctx).scope_spans.len = (Spans.empty Style s.merged.len).len
        rw [theme_changed_scope]
        exact hq1
      · show (q.2.theme_changed ctx).style_spans.len = (Spans.empty Style s.merged.len).len
        rw [theme_changed_style_len]
        exact hq1
    have h3 := resolve_LenInv _ ⟨0, s.merged.len⟩ hInv₁
    exact ⟨h3.1, h3.2⟩

theorem trace_LenInv :
    ∀ (ops : List Op) (s : Scopes), LenInv s → traceWFB s.merged.len ops = true →
      LenInv (ops.foldl applyOp s) ∧
        (ops.foldl applyOp s).merged.len = traceLen s.merged.len ops := by
  intro ops
  induction ops with
  | nil => intro s h _; exact ⟨h, rfl⟩
  | cons op rest ih =>
    intro s h hwf
    rw [traceWFB, Bool.and_eq_true] at hwf
    have hstep := applyOp_step s op h hwf.1
    have := ih (applyOp s op) hstep.1 (by rw [hstep.2]; exact hwf.2)
    rw [List.foldl_cons]
    refine ⟨this.1, ?_⟩
    rw [this.2, hstep.2]
    rfl

set_option maxHeartbeats 1600000 in
theorem update_all_window (layers : List (Nat × ScopeLayer)) (merged : Spans Style)
    (iv : Iv) (n : Nat) (hInv : LenInv ⟨layers, merged⟩)
    (h1 : iv.start ≤ iv.stop) (h2 : iv.stop ≤ merged.len) :
    ∀ sp ∈ ((⟨layers, merged⟩ : Scopes).update_all iv n).merged.spans,
      sp.stop ≤ iv.start ∨ iv.start + n ≤ sp.start := by
  cases layers with
  | nil =>
    show ∀ sp ∈ (merged.edit iv (Spans.empty Style n)).spans,
      sp.stop ≤ iv.start ∨ iv.start + n ≤ sp.start
    exact edit_nil_windowFree merged (Spans.empty Style n) iv rfl (by omega)
  | cons l rest =>
    have hmid := update_all_mid_LenInv ⟨l :: rest, merged⟩ iv n hInv
    have hhead : ((l.2.update_scopes iv (Spans.empty Nat n)).style_spans).len
        = (merged.edit iv (Spans.empty Style n)).len := by
      have hmem : (l.1, l.2.update_scopes iv (Spans.empty Nat n)) ∈
          (l :: rest).map (fun p => (p.1, p.2.update_scopes iv (Spans.empty Nat n))) := by
        rw [List.map_cons]
        exact List.mem_cons_self _ _
      exact (hmid _ hmem).2
    show ∀ sp ∈ ((merged.edit iv (Spans.empty Style n)).edit iv
        ((rest.map (fun p => (p.1, p.2.update_scopes iv (Spans.empty Nat n)))).foldl
          (fun acc other => acc.merge (other.2.style_spans.subseq iv) styleCombine)
          ((l.2.update_scopes iv (Spans.empty Nat n)).style_spans.subseq iv))).spans,
      sp.stop ≤ iv.start ∨ iv.start + n ≤ sp.start
    apply edit_final_windowFree
    · rw [Spans.edit_len]
      have he : (Spans.empty Style n).len = n := rfl
      rw [he]
      omega
    · rw [foldl_merge_len, Spans.subseq_len, hhead]
    · intro sp hsp
      have hwstyle : ∀ sp2 ∈ (l.2.update_scopes iv (Spans.empty Nat n)).style_spans.spans,
          sp2.stop ≤ iv.start ∨ iv.start + n ≤ sp2.start := by
        have hs2 : iv.start ≤ l.2.style_spans.len := by
          rw [(hInv l (List.mem_cons_self _ _)).2]
          dsimp only
          omega
        exact edit_nil_windowFree l.2.style_spans
          ⟨(Spans.empty Nat n).len, coalesce l.2.style_lookup (Spans.empty Nat n).spans⟩
          iv rfl hs2
      have hs3 : iv.start ≤ (l.2.update_scopes iv (Spans.empty Nat n)).style_spans.len := by
        rw [hhead, Spans.edit_len]
        have he : (Spans.empty Style n).len = n := rfl
        rw [he]
        omega
      have base := subseq_startStop _ iv n hs3 hwstyle
      have fold := foldl_merge_startStop iv n
        (rest.map (fun p => (p.1, p.2.update_scopes iv (Spans.empty Nat n)))) _ base
      exact (fold sp hsp).1
    · exact edit_nil_windowFree merged (Spans.empty Style n) iv rfl (by omega)

theorem chainB_mem {V : Type} :
    ∀ (l : List (Span V)) (lo : Nat), chainB lo l = true →
      ∀ s ∈ l, lo ≤ s.start ∧ s.start < s.stop := by
  intro l
  induction l with
  | nil => intro lo _ s hs; cases hs
  | cons x rest ih =>
    intro lo h s hs
    rw [chainB, Bool.and_eq_true, Bool.and_eq_true] at h
    obtain ⟨⟨h1, h2⟩, h3⟩ := h
    rw [decide_eq_true_eq] at h1 h2
    rcases List.mem_cons.mp hs with rfl | hs2
    · exact ⟨h1, h2⟩
    · have h4 := ih x.stop h3 s hs2
      exact ⟨by omega, h4.2⟩

theorem wfb_mem {V : Type} (m : Spans V) (h : m.wfb = true) :
    ∀ s ∈ m.spans, s.start < s.stop ∧ s.stop ≤ m.len := by
  rw [Spans.wfb, Bool.and_eq_true] at h
  intro s hs
  refine ⟨(chainB_mem _ 0 h.1 s hs).2, ?_⟩
  have h2 := List.all_eq_true.mp h.2 s hs
  simpa using h2

theorem chainB_find? {V : Type} :
    ∀ (l : List (Span V)) (lo : Nat), chainB lo l = true →
      ∀ s ∈ l, ∀ p : Nat, s.start ≤ p → p < s.stop →
        l.find? (fun t => t.start ≤ p && p < t.stop) = some s := by
  intro l
  induction l with
  | nil => intro lo _ s hs; cases hs
  | cons x rest ih =>
    intro lo h s hs p hp1 hp2
    rw [chainB, Bool.and_eq_true, Bool.and_eq_true] at h
    obtain ⟨⟨h1, h2⟩, h3⟩ := h
    rw [decide_eq_true_eq] at h1 h2
    rcases List.mem_cons.mp hs with rfl | hs2
    · rw [List.find?_cons_of_pos]
      simp only [Bool.and_eq_true, decide_eq_true_eq]
      exact ⟨hp1, hp2⟩
    · have hxs := chainB_mem rest x.stop h3 s hs2
      rw [List.find?_cons_of_neg, ih x.stop h3 s hs2 p hp1 hp2]
      simp only [Bool.and_eq_true, decide_eq_true_eq, not_and]
      intro _
      omega

theorem wfb_valueAt {V : Type} (m : Spans V) (h : m.wfb = true)
    (s : Span V) (hs : s ∈ m.spans) (p : Nat)
    (h1 : s.start ≤ p) (h2 : p < s.stop) : m.valueAt p = some s.val := by
  rw [Spans.wfb, Bool.and_eq_true] at h
  unfold Spans.valueAt
  rw [chainB_find? m.spans 0 h.1 s hs p h1 h2]
  rfl

theorem valueAt_some_mem {V : Type} (m : Spans V) (p : Nat)
    (h : (m.valueAt p).isSome = true) :
    ∃ t ∈ m.spans, t.start ≤ p ∧ p < t.stop := by
  unfold Spans.valueAt at h
  cases hf : m.spans.find? (fun t => t.start ≤ p && p < t.stop) with
  | none => rw [hf] at h; simp at h
  | some t =>
    have hmem := List.mem_of_find?_eq_some hf
    have hpred := List.find?_some hf
    simp only [Bool.and_eq_true, decide_eq_true_eq] at hpred
    exact ⟨t, hmem, hpred.1, hpred.2⟩

theorem valueAt_none_of_noCover {V : Type} (m : Spans V) (p : Nat)
    (h : ∀ t ∈ m.spans, ¬(t.start ≤ p ∧ p < t.stop)) : m.valueAt p = none := by
  unfold Spans.valueAt
  rw [List.find?_eq_none.mpr]
  · rfl
  · intro t ht
    simp only [Bool.and_eq_true, decide_eq_true_eq, not_and]
    intro ha
    exact fun hb => h t ht ⟨ha, hb⟩

theorem spanBounds_mem {V : Type} :
    ∀ (l : List (Span V)), ∀ t ∈ l, t.start ∈ spanBounds l ∧ t.stop ∈ spanBounds l := by
  intro l
  induction l with
  | nil => intro t ht; cases ht
  | cons x rest ih =>
    intro t ht
    rcases List.mem_cons.mp ht with rfl | ht2
    · exact ⟨by simp [spanBounds], by simp [spanBounds]⟩
    · have := ih t ht2
      exact ⟨by simp [spanBounds, this.1], by simp [spanBounds, this.2]⟩

theorem spanBounds_sorted {V : Type} :
    ∀ (l : List (Span V)) (lo : Nat), chainB lo l = true →
      List.Pairwise (· ≤ ·) (spanBounds l) ∧ ∀ c ∈ spanBounds l, lo ≤ c := by
  intro l
  induction l with
  | nil => intro lo _; exact ⟨List.Pairwise.nil, by intro c hc; cases hc⟩
  | cons x rest ih =>
    intro lo h
    rw [chainB, Bool.and_eq_true, Bool.and_eq_true] at h
    obtain ⟨⟨h1, h2⟩, h3⟩ := h
    rw [decide_eq_true_eq] at h1 h2
    obtain ⟨ihp, ihlo⟩ := ih x.stop h3
    constructor
    · rw [spanBounds, List.pairwise_cons, List.pairwise_cons]
      refine ⟨?_, ?_, ihp⟩
      · intro c hc
        rcases List.mem_cons.mp hc with rfl | hc2
        · omega
        · have := ihlo c hc2
          omega
      · intro c hc
        exact ihlo c hc
    · intro c hc
      rw [spanBounds] at hc
      rcases List.mem_cons.mp hc with rfl | hc2
      · omega
      · rcases List.mem_cons.mp hc2 with rfl | hc3
        · omega
        · have := ihlo c hc3
          omega

theorem points_sorted {V : Type} (s : Span V) (bs : List (Span V))
    (hchain : chainB 0 bs = true) (hss : s.start < s.stop) :
    List.Pairwise (· < ·) (segPoints s (spanBounds bs)) := by
  have hsorted := (spanBounds_sorted bs 0 hchain).1
  have hf : List.Pairwise (· ≤ ·)
      ((spanBounds bs).filter (fun c => s.start < c && c < s.stop)) :=
    List.Pairwise.filter _ hsorted
  have hd : List.Pairwise (· ≤ ·)
      ((spanBounds bs).filter (fun c => s.start < c && c < s.stop)).dedup :=
    List.Pairwise.sublist (List.dedup_sublist _) hf
  have hnd : List.Pairwise (fun a b => a ≠ b)
      ((spanBounds bs).filter (fun c => s.start < c && c < s.stop)).dedup :=
    List.nodup_dedup _
  have hstrict : List.Pairwise (· < ·)
      ((spanBounds bs).filter (fun c => s.start < c && c < s.stop)).dedup :=
    (hd.and hnd).imp (fun h => lt_of_le_of_ne h.1 h.2)
  have hmemf : ∀ c ∈ ((spanBounds bs).filter
      (fun c => s.start < c && c < s.stop)).dedup, s.start < c ∧ c < s.stop := by
    intro c hc
    have := (List.mem_filter.mp (List.mem_dedup.mp hc)).2
    simpa using this
  unfold segPoints
  rw [List.pairwise_cons]
  constructor
  · intro c hc
    rcases List.mem_append.mp hc with hc1 | hc2
    · exact (hmemf c hc1).1
    · have : c = s.stop := by simpa using hc2
      omega
  · rw [List.pairwise_append]
    refine ⟨hstrict, List.pairwise_singleton _ _, ?_⟩
    intro c hc d hd2
    have hcd : d = s.stop := by simpa using hd2
    have := (hmemf c hc).2
    omega

theorem pairs_between :
    ∀ (l : List Nat), List.Pairwise (· < ·) l →
      ∀ pq ∈ pairUp l, pq.1 < pq.2 ∧ ∀ c ∈ l, ¬(pq.1 < c ∧ c < pq.2) := by
  intro l
  induction l with
  | nil => simp [pairUp]
  | cons x rest ih =>
    cases rest with
    | nil => simp [pairUp]
    | cons y rest2 =>
      intro hpw pq hpq
      rw [List.pairwise_cons] at hpw
      obtain ⟨hx, hpw2⟩ := hpw
      rw [pairUp] at hpq
      rcases List.mem_cons.mp hpq with rfl | h2
      · refine ⟨hx y (List.mem_cons_self _ _), ?_⟩
        intro c hc
        rcases List.mem_cons.mp hc with rfl | hc2
        · omega
        · rcases List.mem_cons.mp hc2 with rfl | hc3
          · omega
          · have h5 := (List.pairwise_cons.mp hpw2).1 c hc3
            show ¬(_ < c ∧ c < _)
            omega
      · have ihr := ih hpw2 pq h2
        refine ⟨ihr.1, ?_⟩
        intro c hc
        rcases List.mem_cons.mp hc with rfl | hc2
        · have h5 := hx pq.1 (pairUp_mem _ pq h2).1
          omega
        · exact ihr.2 c hc2

theorem pairUp_fst : ∀ (l : List Nat), ∀ pq ∈ pairUp l, pq.1 ∈ l.dropLast := by
  intro l
  induction l with
  | nil => simp [pairUp]
  | cons x rest ih =>
    cases rest with
    | nil => simp [pairUp]
    | cons y rest2 =>
      intro pq hpq
      rw [pairUp] at hpq
      rw [List.dropLast_cons₂]
      rcases List.mem_cons.mp hpq with rfl | h2
      · exact List.mem_cons_self _ _
      · exact List.mem_cons_of_mem x (ih pq h2)

theorem segPoints_dropLast {V : Type} (s : Span V) (cuts : List Nat) :
    (segPoints s cuts).dropLast =
      s.start :: ((cuts.filter (fun c => s.start < c && c < s.stop)).dedup) := by
  unfold segPoints
  rw [show s.start :: ((cuts.filter (fun c => s.start < c && c < s.stop)).dedup ++ [s.stop])
      = (s.start :: (cuts.filter (fun c => s.start < c && c < s.stop)).dedup) ++ [s.stop]
    from rfl]
  rw [List.dropLast_concat]

theorem wfb_chain {V : Type} (m : Spans V) (h : m.wfb = true) :
    chainB 0 m.spans = true := by
  rw [Spans.wfb, Bool.and_eq_true] at h
  exact h.1

theorem pairUp_fst_lt_stop {V : Type} (s : Span V) (cuts : List Nat)
    (hss : s.start < s.stop) :
    ∀ pq ∈ pairUp (segPoints s cuts), s.start ≤ pq.1 ∧ pq.1 < s.stop := by
  intro pq hpq
  have h := pairUp_fst _ pq hpq
  rw [segPoints_dropLast] at h
  rcases List.mem_cons.mp h with h1 | h2
  · omega
  · have := (List.mem_filter.mp (List.mem_dedup.mp h2)).2
    simp only [Bool.and_eq_true, decide_eq_true_eq] at this
    omega

theorem edit_empty_spans {V : Type} (L : Nat) (iv : Iv) (r : Spans V)
    (h1 : iv.start ≤ iv.stop) (h2 : iv.stop ≤ L) :
    (Spans.empty V L).edit iv r =
      ⟨L - (iv.stop - iv.start) + r.len,
        r.spans.map (fun s => ⟨s.start + iv.start, s.stop + iv.start, s.val⟩)⟩ := by
  have hE : (Spans.empty V L).len = L := rfl
  have ha : min iv.start (Spans.empty V L).len = iv.start := by rw [hE]; omega
  apply Spans.ext_eq
  · rw [Spans.edit_len, hE]
    dsimp only
    omega
  · rw [Spans.edit_spans]
    unfold editRaw
    show List.filterMap _ [] ++ _ ++ List.filterMap _ [] = _
    rw [List.filterMap_nil, List.filterMap_nil, List.nil_append, List.append_nil]
    simp only [ha]

theorem subseq_whole {V : Type} (m : Spans V)
    (h : ∀ sp ∈ m.spans, sp.start < sp.stop ∧ sp.stop ≤ m.len) :
    m.subseq ⟨0, m.len⟩ = m := by
  apply Spans.ext_eq
  · rw [Spans.subseq_len]
    dsimp only
    omega
  · rw [Spans.subseq_spans]
    apply filterMap_some_id
    intro s hs
    obtain ⟨h1, h2⟩ := h s hs
    obtain ⟨xs, xt, xv⟩ := s
    dsimp only at h1 h2 ⊢
    rw [if_pos (by omega)]
    simp only [Option.some.injEq, Span.mk.injEq, and_true]
    constructor <;> omega

theorem subseq_shift {V : Type} (iv : Iv) (L : Nat) (sp : List (Span V))
    (h1 : iv.start ≤ iv.stop) (h2 : iv.stop ≤ L)
    (hsp : ∀ s ∈ sp, s.start < s.stop ∧ s.stop ≤ iv.stop - iv.start) :
    (⟨L, sp.map (fun s => ⟨s.start + iv.start, s.stop + iv.start, s.val⟩)⟩
        : Spans V).subseq iv = ⟨iv.stop - iv.start, sp⟩ := by
  apply Spans.ext_eq
  · rw [Spans.subseq_len]
    dsimp only
    omega
  · rw [Spans.subseq_spans]
    show List.filterMap _ (List.map _ _) = _
    rw [List.filterMap_map]
    apply filterMap_some_id
    intro s hs
    obtain ⟨h3, h4⟩ := hsp s hs
    obtain ⟨xs, xt, xv⟩ := s
    dsimp only at h3 h4
    show (if _ then _ else _) = _
    dsimp only
    rw [if_pos (by omega)]
    simp only [Option.some.injEq, Span.mk.injEq, and_true]
    constructor <;> omega

theorem map_shift_zero {V : Type} :
    ∀ (sp : List (Span V)),
      sp.map (fun s => (⟨s.start + 0, s.stop + 0, s.val⟩ : Span V)) = sp := by
  intro sp
  induction sp with
  | nil => rfl
  | cons x rest ih =>
    rw [List.map_cons, ih]
    rfl

theorem coalesceAux_wf (lookup : List Style) (K : Nat) :
    ∀ (l : List (Span Nat)) (p : Span Nat),
      p.start < p.stop ∧ p.stop ≤ K →
      (∀ s ∈ l, s.start < s.stop ∧ s.stop ≤ K) →
      ∀ t ∈ coalesceAux lookup p l, t.start < t.stop ∧ t.stop ≤ K := by
  intro l
  induction l with
  | nil =>
    intro p hp _ t ht
    rw [coalesceAux] at ht
    rcases List.mem_cons.mp ht with rfl | h
    · exact hp
    · cases h
  | cons n rest ih =>
    intro p hp hl t ht
    rw [coalesceAux] at ht
    split at ht
    case isTrue h =>
      have hn := hl n (List.mem_cons_self _ _)
      refine ih ⟨p.start, n.stop, p.val⟩ ⟨?_, hn.2⟩
        (fun s hs => hl s (List.mem_cons_of_mem _ hs)) t ht
      show p.start < n.stop
      omega
    case isFalse h =>
      rcases List.mem_cons.mp ht with rfl | h2
      · exact hp
      · exact ih n (hl n (List.mem_cons_self _ _))
          (fun s hs => hl s (List.mem_cons_of_mem _ hs)) t h2

theorem coalesce_wf (lookup : List Style) (K : Nat) (l : List (Span Nat))
    (hl : ∀ s ∈ l, s.start < s.stop ∧ s.stop ≤ K) :
    ∀ t ∈ coalesce lookup l, t.start < t.stop ∧ t.stop ≤ K := by
  cases l with
  | nil => intro t ht; cases ht
  | cons p rest =>
    exact coalesceAux_wf lookup K rest p (hl p (List.mem_cons_self _ _))
      (fun s hs => hl s (List.mem_cons_of_mem _ hs))

theorem add_scopes_fresh (L id : Nat) (scopes : List (List String)) (ctx : StyleCtx) :
    (⟨[], Spans.empty Style L⟩ : Scopes).add_scopes id scopes ctx =
      ⟨[(id, (ScopeLayer.new L).add_scopes scopes ctx)], Spans.empty Style L⟩ := by
  unfold Scopes.add_scopes Scopes.create_if_missing Scopes.modifyLayer
  simp [insertLayer]
  rfl

theorem update_layer_single (id : Nat) (iv : Iv) (spans : Spans Nat) (l : ScopeLayer)
    (m : Spans Style) :
    (⟨[(id, l)], m⟩ : Scopes).update_layer id iv spans =
      ⟨[(id, l.update_scopes iv spans)],
        m.edit iv ((l.update_scopes iv spans).style_spans.subseq iv)⟩ := by
  unfold Scopes.update_layer Scopes.create_if_missing Scopes.modifyLayer
    Scopes.resolve_styles
  simp

theorem add_scopes_secondA (idA idB : Nat) (h : idB < idA) (lA : ScopeLayer)
    (m : Spans Style) (scopes : List (List String)) (ctx : StyleCtx) :
    (⟨[(idA, lA)], m⟩ : Scopes).add_scopes idB scopes ctx =
      ⟨[(idB, (ScopeLayer.new m.len).add_scopes scopes ctx), (idA, lA)], m⟩ := by
  have h1 : ¬(idA = idB) := by omega
  have h2 : ¬(idB = idA) := by omega
  unfold Scopes.add_scopes Scopes.create_if_missing Scopes.modifyLayer
  simp [insertLayer, h1, h2, h]

theorem add_scopes_secondB (idA idB : Nat) (h : idA < idB) (lA : ScopeLayer)
    (m : Spans Style) (scopes : List (List String)) (ctx : StyleCtx) :
    (⟨[(idA, lA)], m⟩ : Scopes).add_scopes idB scopes ctx =
      ⟨[(idA, lA), (idB, (ScopeLayer.new m.len).add_scopes scopes ctx)], m⟩ := by
  have h1 : ¬(idA = idB) := by omega
  have h2 : ¬(idB = idA) := by omega
  have h3 : ¬(idB < idA) := by omega
  unfold Scopes.add_scopes Scopes.create_if_missing Scopes.modifyLayer
  simp [insertLayer, h1, h2, h3]

theorem update_layer_twoA (idA idB : Nat) (h : ¬ idA = idB) (lB lA : ScopeLayer)
    (m : Spans Style) (iv : Iv) (spans : Spans Nat) :
    (⟨[(idB, lB), (idA, lA)], m⟩ : Scopes).update_layer idB iv spans =
      ⟨[(idB, lB.update_scopes iv spans), (idA, lA)],
        m.edit iv (((lB.update_scopes iv spans).style_spans.subseq iv).merge
          (lA.style_spans.subseq iv) styleCombine)⟩ := by
  unfold Scopes.update_layer Scopes.create_if_missing Scopes.modifyLayer
    Scopes.resolve_styles
  simp [h]

theorem update_layer_twoB (idA idB : Nat) (h : ¬ idA = idB) (lA lB : ScopeLayer)
    (m : Spans Style) (iv : Iv) (spans : Spans Nat) :
    (⟨[(idA, lA), (idB, lB)], m⟩ : Scopes).update_layer idB iv spans =
      ⟨[(idA, lA), (idB, lB.update_scopes iv spans)],
        m.edit iv ((lA.style_spans.subseq iv).merge
          ((lB.update_scopes iv spans).style_spans.subseq iv) styleCombine)⟩ := by
  unfold Scopes.update_layer Scopes.create_if_missing Scopes.modifyLayer
    Scopes.resolve_styles
  simp [h]

theorem remove_twoA (idA idB : Nat) (h : ¬ idB = idA) (lB lA : ScopeLayer)
    (m : Spans Style) :
    (⟨[(idB, lB), (idA, lA)], m⟩ : Scopes).remove_layer idA =
      ⟨[(idB, lB)], (Spans.empty Style m.len).edit ⟨0, m.len⟩
        (lB.style_spans.subseq ⟨0, m.len⟩)⟩ := by
  unfold Scopes.remove_layer Scopes.resolve_styles
  simp [h]

theorem remove_twoB (idA idB : Nat) (h : ¬ idB = idA) (lA lB : ScopeLayer)
    (m : Spans Style) :
    (⟨[(idA, lA), (idB, lB)], m⟩ : Scopes).remove_layer idA =
      ⟨[(idB, lB)], (Spans.empty Style m.len).edit ⟨0, m.len⟩
        (lB.style_spans.subseq ⟨0, m.len⟩)⟩ := by
  unfold Scopes.remove_layer Scopes.resolve_styles
  simp [h]

theorem Spans.empty_len (V : Type) (L : Nat) : (Spans.empty V L).len = L := rfl

theorem Spans.mk_len {V : Type} (n : Nat) (sp : List (Span V)) :
    (⟨n, sp⟩ : Spans V).len = n := rfl

theorem update_scopes_style (l : ScopeLayer) (iv : Iv) (spans : Spans Nat) :
    (l.update_scopes iv spans).style_spans =
      l.style_spans.edit iv ⟨spans.len, coalesce l.style_lookup spans.spans⟩ := rfl

theorem add_scopes_secondA' (idA idB : Nat) (h : idB < idA) (lA : ScopeLayer)
    (m : Spans Style) (L : Nat) (scopes : List (List String)) (ctx : StyleCtx)
    (hm : m.len = L) :
    (⟨[(idA, lA)], m⟩ : Scopes).add_scopes idB scopes ctx =
      ⟨[(idB, (ScopeLayer.new L).add_scopes scopes ctx), (idA, lA)], m⟩ := by
  subst hm
  exact add_scopes_secondA idA idB h lA m scopes ctx

theorem add_scopes_secondB' (idA idB : Nat) (h : idA < idB) (lA : ScopeLayer)
    (m : Spans Style) (L : Nat) (scopes : List (List String)) (ctx : StyleCtx)
    (hm : m.len = L) :
    (⟨[(idA, lA)], m⟩ : Scopes).add_scopes idB scopes ctx =
      ⟨[(idA, lA), (idB, (ScopeLayer.new L).add_scopes scopes ctx)], m⟩ := by
  subst hm
  exact add_scopes_secondB idA idB h lA m scopes ctx

theorem remove_twoA' (idA idB : Nat) (h : ¬ idB = idA) (lB lA : ScopeLayer)
    (m : Spans Style) (L : Nat) (hm : m.len = L) :
    (⟨[(idB, lB), (idA, lA)], m⟩ : Scopes).remove_layer idA =
      ⟨[(idB, lB)], (Spans.empty Style L).edit ⟨0, L⟩
        (lB.style_spans.subseq ⟨0, L⟩)⟩ := by
  subst hm
  exact remove_twoA idA idB h lB lA m

theorem remove_twoB' (idA idB : Nat) (h : ¬ idB = idA) (lA lB : ScopeLayer)
    (m : Spans Style) (L : Nat) (hm : m.len = L) :
    (⟨[(idA, lA), (idB, lB)], m⟩ : Scopes).remove_layer idA =
      ⟨[(idB, lB)], (Spans.empty Style L).edit ⟨0, L⟩
        (lB.style_spans.subseq ⟨0, L⟩)⟩ := by
  subst hm
  exact remove_twoB idA idB h lA lB m

theorem edit_whole_empty {V : Type} (m : Spans V) (L : Nat) (hlen : m.len = L) :
    (Spans.empty V L).edit ⟨0, L⟩ m = m := by
  have hE : (Spans.empty V L).len = L := rfl
  apply Spans.ext_eq
  · rw [Spans.edit_len, hE, hlen]
    dsimp only
    omega
  · rw [Spans.edit_spans]
    unfold editRaw
    show List.filterMap _ [] ++ _ ++ List.filterMap _ [] = _
    rw [List.filterMap_nil, List.filterMap_nil, List.nil_append, List.append_nil]
    have ha : min (⟨0, L⟩ : Iv).start (Spans.empty V L).len = 0 := by
      show min 0 L = 0
      omega
    rw [ha]
    exact map_shift_zero m.spans

theorem fresh_layer_merged (L : Nat) (ivB : Iv) (spansB : Spans Nat)
    (lookup : List Style)
    (hB1 : ivB.start ≤ ivB.stop) (hB2 : ivB.stop ≤ L)
    (hB3 : spansB.len = ivB.stop - ivB.start) (hBwf : spansB.wfb = true) :
    (Spans.empty Style L).edit ⟨0, L⟩
        (((Spans.empty Style L).edit ivB
          ⟨spansB.len, coalesce lookup spansB.spans⟩).subseq ⟨0, L⟩) =
      (Spans.empty Style L).edit ivB
        (((Spans.empty Style L).edit ivB
          ⟨spansB.len, coalesce lookup spansB.spans⟩).subseq ivB) := by
  have hsbwf : ∀ t ∈ (⟨spansB.len, coalesce lookup spansB.spans⟩ : Spans Style).spans,
      t.start < t.stop ∧ t.stop ≤ spansB.len :=
    coalesce_wf lookup spansB.len spansB.spans (wfb_mem spansB hBwf)
  set sb : Spans Style := ⟨spansB.len, coalesce lookup spansB.spans⟩ with hsbdef
  have hMB : (Spans.empty Style L).edit ivB sb =
      ⟨L, sb.spans.map (fun s => ⟨s.start + ivB.start, s.stop + ivB.start, s.val⟩)⟩ := by
    rw [edit_empty_spans L ivB sb hB1 hB2]
    have h5 : L - (ivB.stop - ivB.start) + sb.len = L := by
      show L - _ + spansB.len = L
      omega
    rw [h5]
  have hshift : ∀ s ∈ sb.spans.map
      (fun s => (⟨s.start + ivB.start, s.stop + ivB.start, s.val⟩ : Span Style)),
      s.start < s.stop ∧ s.stop ≤ L := by
    intro s hs
    obtain ⟨t, ht, rfl⟩ := List.mem_map.mp hs
    have := hsbwf t ht
    dsimp only
    omega
  have hsub_whole : ((Spans.empty Style L).edit ivB sb).subseq ⟨0, L⟩
      = (Spans.empty Style L).edit ivB sb := by
    rw [hMB]
    exact subseq_whole _ hshift
  have hsub_iv : ((Spans.empty Style L).edit ivB sb).subseq ivB = sb := by
    rw [hMB]
    rw [subseq_shift ivB L sb.spans hB1 hB2
      (fun s hs => by have := hsbwf s hs; exact ⟨this.1, by omega⟩)]
    apply Spans.ext_eq
    · show ivB.stop - ivB.start = spansB.len
      omega
    · rfl
  have hlenMB : ((Spans.empty Style L).edit ivB sb).len = L := by rw [hMB]
  rw [hsub_whole, hsub_iv]
  exact edit_whole_empty _ L hlenMB

theorem fresh_layer_merged_layer (L : Nat) (ivB : Iv) (spansB : Spans Nat)
    (lb : ScopeLayer) (hstyle : lb.style_spans = Spans.empty Style L)
    (hB1 : ivB.start ≤ ivB.stop) (hB2 : ivB.stop ≤ L)
    (hB3 : spansB.len = ivB.stop - ivB.start) (hBwf : spansB.wfb = true) :
    (Spans.empty Style L).edit ⟨0, L⟩
        ((lb.update_scopes ivB spansB).style_spans.subseq ⟨0, L⟩) =
      (Spans.empty Style L).edit ivB
        ((lb.update_scopes ivB spansB).style_spans.subseq ivB) := by
  rw [update_scopes_style, hstyle]
  exact fresh_layer_merged L ivB spansB lb.style_lookup hB1 hB2 hB3 hBwf

/-! Claim theorems. -/

/-- C1.  Compositing precedence: with source 1 contributing red over
`[0,10)` and source 2 contributing bold with color unset, the merged style
equals red+bold (unset attributes fall through); and with the sources
registered in the opposite order but source 2 carrying blue+bold, the
numerically larger identifier still paints on top, so blue wins over red
regardless of registration order. -/
theorem claim_C1 :
    exOneTwo.get_merged =
      ⟨10, [⟨0, 10, { fg := some 1, bold := some true }⟩]⟩ ∧
    exTwoOne.get_merged =
      ⟨10, [⟨0, 10, { fg := some 2, bold := some true }⟩]⟩ := by
  decide

/-- C3 counterexample.  After two `update_layer` calls over `[0,5)` and
`[5,10)` whose scope data resolve to the same style, layer 1's
`style_spans` holds two exactly-abutting spans with equal style values:
the compression invariant does not hold at every observable point. -/
theorem claim_C3_cex :
    ((layersOf exTwoUpdates).getD 0 Inhabited.default).style_spans =
      ⟨10, [⟨0, 5, { fg := some 1 }⟩, ⟨5, 10, { fg := some 1 }⟩]⟩ ∧
    noAdjEqB ((layersOf exTwoUpdates).getD 0 Inhabited.default).style_spans.spans
      = false := by
  decide

/-- C3 amended.  The styles written by any single `update_styles` call are
fully coalesced — `coalesce` never emits two exactly-abutting spans with
equal style values, so a layer built by one update (here with adjacent
sub-ranges resolving to one style via the distinct indices 0 and 1) gets a
single merged span; adjacent equal spans can only arise across the
boundary between content written by different update calls. -/
theorem claim_C3_amended :
    (∀ (lookup : List Style) (l : List (Span Nat)),
      noAdjEqB (coalesce lookup l) = true) ∧
    (((ScopeLayer.new 10).add_scopes [["a"], ["b"]] exCtxRed).update_scopes
        ⟨0, 10⟩ ⟨10, [⟨0, 4, 0⟩, ⟨4, 10, 1⟩]⟩).style_spans =
      ⟨10, [⟨0, 10, { fg := some 1 }⟩]⟩ := by
  refine ⟨coalesce_noAdj, by decide⟩

/-- C9.  `add_scopes` is total and recoverable per entry: every scope name
failing to resolve is dropped from its own stack only, the filtered stacks
and their resolved styles are appended in index correspondence (an
entirely unresolvable stack still yields a style), the raw stacks go to
`name_lookup`, and no span data changes. -/
theorem claim_C9 (l : ScopeLayer) (scopes : List (List String)) (ctx : StyleCtx) :
    (l.add_scopes scopes ctx).stack_lookup =
        l.stack_lookup ++ scopes.map (fun st => st.filter ctx.valid) ∧
    (l.add_scopes scopes ctx).style_lookup =
        l.style_lookup ++ scopes.map (fun st => ctx.styleForStack (st.filter ctx.valid)) ∧
    (l.add_scopes scopes ctx).name_lookup = l.name_lookup ++ scopes ∧
    (l.add_scopes scopes ctx).stack_lookup.length =
        l.stack_lookup.length + scopes.length ∧
    (l.add_scopes scopes ctx).style_lookup.length =
        l.style_lookup.length + scopes.length ∧
    (l.add_scopes scopes ctx).scope_spans = l.scope_spans ∧
    (l.add_scopes scopes ctx).style_spans = l.style_spans := by
  have key : ∀ (sc : List (List String)) (a₁ a₂ : List (List String)),
      sc.foldl (fun (acc : List (List String) × List (List String)) stack =>
        (acc.1 ++ [stack.filter ctx.valid], acc.2 ++ [stack])) (a₁, a₂) =
      (a₁ ++ sc.map (fun st => st.filter ctx.valid), a₂ ++ sc) := by
    intro sc
    induction sc with
    | nil => simp
    | cons st rest ih => intro a₁ a₂; simp [List.foldl_cons, ih]
  unfold ScopeLayer.add_scopes
  rw [key]
  simp [List.map_map]

/-- C2.  Length-lockstep invariant: starting from the default state, after
any contract-respecting sequence of the public operations every registered
layer's `scope_spans` and `style_spans` lengths equal the merged map's
length, which equals the current document length as driven by the
`update_all` edits of the trace. -/
theorem claim_C2 (ops : List Op) (h : traceWFB 0 ops = true) :
    LenInv (ops.foldl applyOp Scopes.default) ∧
      (ops.foldl applyOp Scopes.default).merged.len = traceLen 0 ops := by
  have h0 : LenInv Scopes.default := by
    intro p hp
    simp [Scopes.default] at hp
  exact trace_LenInv ops Scopes.default h0 h

/-- C2 witness: a concrete trace exercising all five public operations. -/
theorem claim_C2_witness :
    traceWFB 0 exOpsTrace = true ∧
      (LenInv (exOpsTrace.foldl applyOp Scopes.default) ∧
        (exOpsTrace.foldl applyOp Scopes.default).merged.len = traceLen 0 exOpsTrace) :=
  ⟨by decide, claim_C2 exOpsTrace (by decide)⟩

/-- C4.  For every invariant-respecting state and in-bounds interval,
`update_all(iv, n)` followed by `get_merged` yields empty/default style
over the edited region (the region of length `n` replacing `iv`), and the
merged map's total length reflects the replacement of `iv` by `n` units. -/
theorem claim_C4 (s : Scopes) (iv : Iv) (n : Nat) (hInv : LenInv s)
    (h1 : iv.start ≤ iv.stop) (h2 : iv.stop ≤ s.merged.len) :
    (s.update_all iv n).get_merged.subseq ⟨iv.start, iv.start + n⟩ =
        Spans.empty Style n ∧
      (s.update_all iv n).get_merged.len = s.merged.len - (iv.stop - iv.start) + n := by
  obtain ⟨layers, merged⟩ := s
  dsimp only at h2
  have hmid := update_all_mid_LenInv ⟨layers, merged⟩ iv n hInv
  have hres := resolve_LenInv
    ⟨layers.map (fun p => (p.1, p.2.update_scopes iv (Spans.empty Nat n))),
      merged.edit iv (Spans.empty Style n)⟩ iv hmid
  have hlen2 : ((⟨layers, merged⟩ : Scopes).update_all iv n).get_merged.len
      = merged.len - (iv.stop - iv.start) + n := by
    show (Scopes.resolve_styles
      ⟨layers.map (fun p => (p.1, p.2.update_scopes iv (Spans.empty Nat n))),
        merged.edit iv (Spans.empty Style n)⟩ iv).merged.len = _
    rw [hres.2]
    show (merged.edit iv (Spans.empty Style n)).len = _
    rw [Spans.edit_len]
    have he : (Spans.empty Style n).len = n := rfl
    rw [he]
    omega
  refine ⟨?_, hlen2⟩
  apply subseq_window_empty
  · rw [hlen2]
    omega
  · exact update_all_window layers merged iv n hInv h1 h2

/-- C4 witness: editing `[3,7)` of a populated 10-unit document down to 2
units leaves the new region style-free and the length at 8. -/
theorem claim_C4_witness :
    (LenInv exOneTwo ∧ 3 ≤ 7 ∧ 7 ≤ exOneTwo.merged.len) ∧
      ((exOneTwo.update_all ⟨3, 7⟩ 2).get_merged.subseq ⟨3, 3 + 2⟩ =
          Spans.empty Style 2 ∧
        (exOneTwo.update_all ⟨3, 7⟩ 2).get_merged.len =
          exOneTwo.merged.len - (7 - 3) + 2) :=
  ⟨⟨by decide, by decide, by decide⟩,
    claim_C4 exOneTwo ⟨3, 7⟩ 2 (by decide) (by decide) (by decide)⟩

/-- C5.  Removal correctness: registering and populating source A, then
source B, then removing A yields merged output over the whole document
identical to having registered and identically populated only B from the
start; the removal recomputes `merged` over the entire document length. -/
theorem claim_C5 (L idA idB : Nat) (scopesA scopesB : List (List String))
    (ctxA ctxB : StyleCtx) (ivA ivB : Iv) (spansA spansB : Spans Nat)
    (hne : ¬ idA = idB)
    (hA1 : ivA.start ≤ ivA.stop) (hA2 : ivA.stop ≤ L)
    (hA3 : spansA.len = ivA.stop - ivA.start)
    (hB1 : ivB.start ≤ ivB.stop) (hB2 : ivB.stop ≤ L)
    (hB3 : spansB.len = ivB.stop - ivB.start) (hBwf : spansB.wfb = true) :
    ((((((⟨[], Spans.empty Style L⟩ : Scopes).add_scopes idA scopesA
        ctxA).update_layer idA ivA spansA).add_scopes idB scopesB
        ctxB).update_layer idB ivB spansB).remove_layer idA).get_merged =
      (((⟨[], Spans.empty Style L⟩ : Scopes).add_scopes idB scopesB
        ctxB).update_layer idB ivB spansB).get_merged := by
  have hAs : ((ScopeLayer.new L).add_scopes scopesA ctxA).style_spans =
      Spans.empty Style L := rfl
  have hBs : ((ScopeLayer.new L).add_scopes scopesB ctxB).style_spans =
      Spans.empty Style L := rfl
  rw [add_scopes_fresh L idA scopesA ctxA]
  rw [update_layer_single idA ivA spansA]
  rw [add_scopes_fresh L idB scopesB ctxB]
  rw [update_layer_single idB ivB spansB]
  rcases Nat.lt_or_ge idA idB with hord | hord
  · rw [add_scopes_secondB' idA idB hord]
    rw [update_layer_twoB idA idB hne]
    rw [remove_twoB' idA idB (by omega)]
    · simp only [Scopes.get_merged]
      exact fresh_layer_merged_layer L ivB spansB
        ((ScopeLayer.new L).add_scopes scopesB ctxB) rfl hB1 hB2 hB3 hBwf
    · simp only [Spans.edit_len, Spans.merge_len, Spans.subseq_len,
        update_scopes_style, Spans.empty_len, Spans.mk_len, hAs, hBs]
      omega
    · simp only [Spans.edit_len, Spans.merge_len, Spans.subseq_len,
        update_scopes_style, Spans.empty_len, Spans.mk_len, hAs, hBs]
      omega
  · have hord2 : idB < idA := by omega
    rw [add_scopes_secondA' idA idB hord2]
    rw [update_layer_twoA idA idB hne]
    rw [remove_twoA' idA idB (by omega)]
    · simp only [Scopes.get_merged]
      exact fresh_layer_merged_layer L ivB spansB
        ((ScopeLayer.new L).add_scopes scopesB ctxB) rfl hB1 hB2 hB3 hBwf
    · simp only [Spans.edit_len, Spans.merge_len, Spans.subseq_len,
        update_scopes_style, Spans.empty_len, Spans.mk_len, hAs, hBs]
      omega
    · simp only [Spans.edit_len, Spans.merge_len, Spans.subseq_len,
        update_scopes_style, Spans.empty_len, Spans.mk_len, hAs, hBs]
      omega

/-- C5 witness: sources 1 and 2 over a 10-unit document, removing 1. -/
theorem claim_C5_witness :
    (¬ (1 : Nat) = 2 ∧ (⟨5, [⟨0, 5, 0⟩]⟩ : Spans Nat).wfb = true) ∧
    ((((((⟨[], Spans.empty Style 10⟩ : Scopes).add_scopes 1 [["a"]]
        exCtxRed).update_layer 1 ⟨0, 10⟩ exFull).add_scopes 2 [["b"]]
        exCtxBold).update_layer 2 ⟨0, 5⟩ ⟨5, [⟨0, 5, 0⟩]⟩).remove_layer 1).get_merged =
      (((⟨[], Spans.empty Style 10⟩ : Scopes).add_scopes 2 [["b"]]
        exCtxBold).update_layer 2 ⟨0, 5⟩ ⟨5, [⟨0, 5, 0⟩]⟩).get_merged :=
  ⟨⟨by decide, by decide⟩,
    claim_C5 10 1 2 [["a"]] [["b"]] exCtxRed exCtxBold ⟨0, 10⟩ ⟨0, 5⟩ exFull
      ⟨5, [⟨0, 5, 0⟩]⟩ (by decide) (by decide) (by decide) (by decide) (by decide)
      (by decide) (by decide) (by decide)⟩

/-- C7.  Idempotence of resolution: with the length-lockstep invariant in
force and no intervening mutation, running `resolve_styles` twice over the
same interval yields a state bit-identical to running it once. -/
theorem claim_C7 (s : Scopes) (iv : Iv) (h : LenInv s) :
    (s.resolve_styles iv).resolve_styles iv = s.resolve_styles iv := by
  obtain ⟨layers, merged⟩ := s
  cases layers with
  | nil => rfl
  | cons l rest =>
    have hst : l.2.style_spans.len = merged.len := (h l (List.mem_cons_self _ _)).2
    have hR : (rest.foldl
        (fun acc other => acc.merge (other.2.style_spans.subseq iv) styleCombine)
        (l.2.style_spans.subseq iv)).len =
          max (min iv.start merged.len) (min iv.stop merged.len)
            - min iv.start merged.len := by
      rw [foldl_merge_len, Spans.subseq_len, hst]
    have hBdd := foldl_merge_AllB iv rest (l.2.style_spans.subseq iv)
      (Spans.subseq_AllB _ _)
    show (⟨l :: rest,
        (merged.edit iv
          (rest.foldl
            (fun acc other => acc.merge (other.2.style_spans.subseq iv) styleCombine)
            (l.2.style_spans.subseq iv))).edit iv
          (rest.foldl
            (fun acc other => acc.merge (other.2.style_spans.subseq iv) styleCombine)
            (l.2.style_spans.subseq iv))⟩ : Scopes) =
      ⟨l :: rest,
        merged.edit iv
          (rest.foldl
            (fun acc other => acc.merge (other.2.style_spans.subseq iv) styleCombine)
            (l.2.style_spans.subseq iv))⟩
    rw [Spans.edit_twice merged _ iv hR (fun sp hsp => (hBdd sp hsp).2)]

/-- C7 witness: a concrete two-layer state satisfying the invariant on
which double resolution is checked. -/
theorem claim_C7_witness :
    LenInv exOneTwo ∧
    (exOneTwo.resolve_styles ⟨2, 8⟩).resolve_styles ⟨2, 8⟩ =
      exOneTwo.resolve_styles ⟨2, 8⟩ :=
  ⟨by decide, claim_C7 exOneTwo ⟨2, 8⟩ (by decide)⟩

/-- C6 counterexample.  A public `update_layer` call on source 2 whose
data covers only `[0,2)` of the resolved interval `[0,5)` (source 1 covers
everything) drives `resolve_styles` into a merge whose minimal
sub-interval `[2,5)` presents `none` from the other side: the `None`
branch of the combine function is taken in an actual execution of this
core's operations.  The first conjunct pins the intermediate state
`exGapPre` as exactly the state whose resolution the public call runs;
the merge performed on it is the one enumerated by `mergeSegs`. -/
theorem claim_C6_cex :
    ((((exInit.add_scopes 1 [["a"]] exCtxRed).update_layer 1 ⟨0, 10⟩ exFull).add_scopes
        2 [["b"]] exCtxBold).update_layer 2 ⟨0, 5⟩ ⟨5, [⟨0, 2, 0⟩]⟩ =
      exGapPre.resolve_styles ⟨0, 5⟩) ∧
    exGapPre.layers.map (fun p => p.1) = [1, 2] ∧
    ((((layersOf exGapPre).getD 0 Inhabited.default).style_spans.subseq ⟨0, 5⟩).mergeSegs
        (((layersOf exGapPre).getD 1 Inhabited.default).style_spans.subseq ⟨0, 5⟩)).any
      (fun g => g.val.2.isNone) = true := by
  exact ⟨rfl, by decide, by decide⟩

/-- C6 amended.  The `None` branch is unreachable exactly under the
premise the spec asserts — that the other side's span map covers its full
length: if the overlay carries a value at every position, every minimal
sub-interval enumerated by the merge presents `Some` from the overlay.
The premise itself is not invariant in this core (empty-span builders and
partial plugin data leave gaps), and with a gap the branch is taken. -/
theorem claim_C6_amended (a b : Spans Style)
    (ha : a.wfb = true) (hlen : a.len = b.len)
    (hcov : ∀ p, p < b.len → (b.valueAt p).isSome = true) :
    (a.mergeSegs b).all (fun g => g.val.2.isSome) = true := by
  rw [List.all_eq_true]
  intro g hg
  obtain ⟨s, hs, pq, hpq, rfl⟩ := mergeSegs_mem a b g hg
  have hsw := wfb_mem a ha s hs
  have hfst := pairUp_fst_lt_stop s (spanBounds b.spans) hsw.1 pq hpq
  show (b.valueAt pq.1).isSome = true
  apply hcov
  omega

/-- C6 amended witness: a fully covering two-span overlay presents `Some`
on every minimal sub-interval. -/
theorem claim_C6_amended_witness :
    ((⟨4, [⟨0, 4, { fg := some 1 }⟩]⟩ : Spans Style).wfb = true ∧
      (⟨4, [⟨0, 4, { fg := some 1 }⟩]⟩ : Spans Style).len =
        (⟨4, [⟨0, 2, { bold := some true }⟩, ⟨2, 4, {}⟩]⟩ : Spans Style).len ∧
      (∀ p, p < (⟨4, [⟨0, 2, { bold := some true }⟩, ⟨2, 4, {}⟩]⟩ : Spans Style).len →
        ((⟨4, [⟨0, 2, { bold := some true }⟩, ⟨2, 4, {}⟩]⟩ : Spans Style).valueAt p).isSome
          = true)) ∧
    ((⟨4, [⟨0, 4, { fg := some 1 }⟩]⟩ : Spans Style).mergeSegs
        ⟨4, [⟨0, 2, { bold := some true }⟩, ⟨2, 4, {}⟩]⟩).all
      (fun g => g.val.2.isSome) = true :=
  ⟨⟨by decide, by decide, by decide⟩,
    claim_C6_amended _ _ (by decide) (by decide) (by decide)⟩

/-- C10.  Gap tolerance of compositing: whenever a merge segment carries
`none` from the overlay (the overlay has no span at its start), the
overlay in fact has no span anywhere on that minimal sub-interval, the
combine closure returns the base value unchanged, and the merged output
carries exactly the base's value over that sub-interval — a layer with
missing data never erases or alters styles contributed by lower layers. -/
theorem claim_C10 (a b : Spans Style) (g : Span (Style × Option Style))
    (ha : a.wfb = true) (hb : b.wfb = true)
    (hg : g ∈ a.mergeSegs b) (hnone : g.val.2 = none) :
    (∀ x, g.start ≤ x → x < g.stop → b.valueAt x = none) ∧
      a.valueAt g.start = some g.val.1 ∧
      styleCombine g.val.1 none = g.val.1 ∧
      (⟨g.start, g.stop, g.val.1⟩ : Span Style) ∈ (a.merge b styleCombine).spans := by
  obtain ⟨s, hs, pq, hpq, rfl⟩ := mergeSegs_mem a b g hg
  dsimp only at hnone ⊢
  have hsw := wfb_mem a ha s hs
  have hfst := pairUp_fst_lt_stop s (spanBounds b.spans) hsw.1 pq hpq
  have hsnd := segPoints_mem s (spanBounds b.spans) pq.2 (pairUp_mem _ pq hpq).2
  have hpts := points_sorted s b.spans (wfb_chain b hb) hsw.1
  have hbet := pairs_between _ hpts pq hpq
  refine ⟨?_, ?_, rfl, ?_⟩
  · intro x hx1 hx2
    apply valueAt_none_of_noCover
    intro t ht hcover
    by_cases hts : t.start ≤ pq.1
    · have hv : b.valueAt pq.1 = some t.val :=
        wfb_valueAt b hb t ht pq.1 hts (by omega)
      rw [hnone] at hv
      cases hv
    · have htb := (spanBounds_mem b.spans t ht).1
      have hcut : t.start ∈ segPoints s (spanBounds b.spans) := by
        unfold segPoints
        apply List.mem_cons_of_mem
        apply List.mem_append_left
        rw [List.mem_dedup, List.mem_filter]
        refine ⟨htb, ?_⟩
        simp only [Bool.and_eq_true, decide_eq_true_eq]
        rcases hsnd with h2 | h2 | h2 <;> constructor <;> omega
      rcases hsnd with h2 | h2 | h2 <;>
        exact hbet.2 t.start hcut ⟨by omega, by omega⟩
  · exact wfb_valueAt a ha s hs pq.1 hfst.1 hfst.2
  · refine List.mem_map.mpr ⟨⟨pq.1, pq.2, (s.val, b.valueAt pq.1)⟩, hg, ?_⟩
    show (⟨pq.1, pq.2, styleCombine s.val (b.valueAt pq.1)⟩ : Span Style) =
      ⟨pq.1, pq.2, s.val⟩
    rw [hnone]
    rfl

/-- C10 witness: a base covering `[0,10)` merged with an overlay covering
only `[0,2)`; the segment `[2,10)` carries `none` and keeps the base
style. -/
theorem claim_C10_witness :
    ((⟨10, [⟨0, 10, { fg := some 1 }⟩]⟩ : Spans Style).wfb = true ∧
      (⟨10, [⟨0, 2, { bold := some true }⟩]⟩ : Spans Style).wfb = true ∧
      (⟨2, 10, ({ fg := some 1 }, none)⟩ : Span (Style × Option Style)) ∈
        (⟨10, [⟨0, 10, { fg := some 1 }⟩]⟩ : Spans Style).mergeSegs
          ⟨10, [⟨0, 2, { bold := some true }⟩]⟩) ∧
    ((∀ x, 2 ≤ x → x < 10 →
        (⟨10, [⟨0, 2, { bold := some true }⟩]⟩ : Spans Style).valueAt x = none) ∧
      (⟨10, [⟨0, 10, { fg := some 1 }⟩]⟩ : Spans Style).valueAt 2 =
        some { fg := some 1 } ∧
      styleCombine { fg := some 1 } none = { fg := some 1 } ∧
      (⟨2, 10, { fg := some 1 }⟩ : Span Style) ∈
        ((⟨10, [⟨0, 10, { fg := some 1 }⟩]⟩ : Spans Style).merge
          ⟨10, [⟨0, 2, { bold := some true }⟩]⟩ styleCombine).spans) :=
  ⟨⟨by decide, by decide, by decide⟩,
    claim_C10 ⟨10, [⟨0, 10, { fg := some 1 }⟩]⟩ ⟨10, [⟨0, 2, { bold := some true }⟩]⟩
      ⟨2, 10, ({ fg := some 1 }, none)⟩ (by decide) (by decide) (by decide) rfl⟩

/-- C8.  `theme_changed` leaves every layer's identifier, `scope_spans`,
`stack_lookup` and `name_lookup` untouched: only the style lookup, the
style spans and the merged map may change. -/
theorem claim_C8 (s : Scopes) (ctx : StyleCtx) :
    (s.theme_changed ctx).layers.map
        (fun p => (p.1, p.2.scope_spans, p.2.stack_lookup, p.2.name_lookup)) =
      s.layers.map
        (fun p => (p.1, p.2.scope_spans, p.2.stack_lookup, p.2.name_lookup)) := by
  unfold Scopes.theme_changed
  rw [resolve_layers]
  simp only [List.map_map]
  rfl

end Xi
